import Mathlib

/-!
Verification development for the scripta-agent import-path rewriting tools
(`src/update_imports.py` and `src/use_core_alias.py`).

The embedding works on character lists and component lists:

* an absolute, normalized filesystem path (a `SourceLocation`) is a
  `List Comp` of components, each component a `List Char`
  (so `/src/cli/components` is `[src, cli, components]`);
* a raw relative path text (as written inside an import statement) is a
  `List Char`;
* `resolve` embeds Python's `(dir / text).resolve()` lexically (no
  symbolic links are modelled, matching the tools' intent);
* `is_relative_to` embeds the helper of the same name from both scripts
  (component-wise `Path.relative_to`);
* `relpathText` embeds `os.path.relpath` for two absolute paths followed
  by `Path(...).as_posix()`.
-/

namespace Scripta

abbrev Comp := List Char
abbrev AbsPath := List Comp

/-- Python `text.split("/")` on the characters of a path text
    (auxiliary: `cur` is the reversed current component). -/
def splitSlashAux : List Char → List Char → List (List Char)
  | [], cur => [cur.reverse]
  | c :: rest, cur =>
    if c = '/' then cur.reverse :: splitSlashAux rest []
    else splitSlashAux rest (c :: cur)

/-- Python `text.split("/")`. -/
def splitSlash (s : List Char) : List (List Char) :=
  splitSlashAux s []

/-- One lexical resolution step, as `pathlib` parsing plus `Path.resolve`
    treat a single component: empty components and `.` are dropped, `..`
    removes the last component (at the root it stays at the root), and any
    other component is appended. -/
def resolveStep (acc : AbsPath) (part : Comp) : AbsPath :=
  if part = [] ∨ part = ['.'] then acc
  else if part = ['.', '.'] then acc.dropLast
  else acc ++ [part]

/-- Resolving a list of components against an absolute base. -/
def resolveComps (base : AbsPath) (parts : List Comp) : AbsPath :=
  parts.foldl resolveStep base

/-- `resolve(D, text)`: the embedding of `(current_file_dir / text).resolve()`
    (`update_imports.py` line 56, `use_core_alias.py` line 54); purely
    lexical, no symbolic links. -/
def resolve (base : AbsPath) (relText : List Char) : AbsPath :=
  resolveComps base (splitSlash relText)

/-- The helper `is_relative_to(path, base)` of both scripts: Python
    `path.relative_to(base)` succeeds exactly when `base`'s components are
    a prefix of `path`'s. -/
def is_relative_to (path base : AbsPath) : Bool :=
  base.isPrefixOf path

/-- The length of the longest common component prefix (as
    `os.path.relpath` computes it). -/
def commonPrefixLen : AbsPath → AbsPath → Nat
  | a :: as, b :: bs => if a = b then commonPrefixLen as bs + 1 else 0
  | _, _ => 0

/-- Components of `os.path.relpath(target, start)` for two absolute
    normalized paths: enough `..` entries to climb out of `start`, then
    the rest of `target`. -/
def relpathComps (target start : AbsPath) : List Comp :=
  List.replicate (start.length - commonPrefixLen target start) ['.', '.']
    ++ target.drop (commonPrefixLen target start)

/-- Joining components with `/` (Python `"/".join`, also
    `PurePosixPath.as_posix` on an already-normalized relative path). -/
def joinSlash : List Comp → List Char
  | [] => []
  | [c] => c
  | c :: rest => c ++ '/' :: joinSlash rest

/-- `os.path.relpath(target, start)` as text; an empty component list
    renders as `.` exactly as `os.path.relpath` does. -/
def relpathText (target start : AbsPath) : List Char :=
  if relpathComps target start = [] then ['.'] else joinSlash (relpathComps target start)

/-- The `startswith(("../", "./"))` guard of both emit sites: prepend `./`
    unless the text already carries a relative marker
    (`update_imports.py` lines 70–71 and 84–85). -/
def addDotSlash (s : List Char) : List Char :=
  if ['.', '.', '/'].isPrefixOf s ∨ ['.', '/'].isPrefixOf s then s else '.' :: '/' :: s

/-- The Relocation configuration of `update_imports.py`: the old and the
    new absolute components roots. -/
structure RelocCfg where
  oldRoot : AbsPath
  newRoot : AbsPath

/-- The per-reference decision of `update_imports.update_file_imports`
    (lines 50–91): given the referencing file `F` (absolute) and the raw
    matched path text `p`, `some` replacement text or `none` for
    Unchanged. Scenario A rewrites references of files outside the new
    components root whose resolved target is inside the old root; Scenario
    B recomputes the relative path for files inside the new root whose
    target is not under the old root, emitting only when the text differs. -/
def relocRewriteRef (cfg : RelocCfg) (F : AbsPath) (p : List Char) : Option (List Char) :=
  let D := F.dropLast
  let T := resolve D p
  let inNew := is_relative_to F cfg.newRoot
  if !inNew && is_relative_to T cfg.oldRoot then
    let suffix := T.drop cfg.oldRoot.length
    let newAbs := resolveComps cfg.newRoot suffix
    some (addDotSlash (relpathText newAbs D))
  else if inNew && !(is_relative_to T cfg.oldRoot) then
    let cand := addDotSlash (relpathText T D)
    if cand ≠ p then some cand else none
  else none

/-- `re.sub` with the pattern written in `use_core_alias.py` line 63,
    which is `r'\\.(ts|tsx)$'`: a literal backslash, then any character
    but a newline, then `ts` or `tsx`, anchored at the end. (The doubled
    backslash in the raw string makes the pattern match a literal
    backslash — it does not strip a plain `.ts`/`.tsx` extension.) -/
def stripExtSub (s : List Char) : List Char :=
  match s.reverse with
  | 'x' :: 's' :: 't' :: c :: '\\' :: rest => if c ≠ '\n' then rest.reverse else s
  | 's' :: 't' :: c :: '\\' :: rest => if c ≠ '\n' then rest.reverse else s
  | _ => s

/-- `Path.relative_to` rendered with `as_posix`: the empty remainder
    renders as `.`. -/
def joinSlashRel (l : List Comp) : List Char :=
  if l = [] then ['.'] else joinSlash l

/-- The per-reference decision of `use_core_alias.update_file_imports`
    (lines 53–63): when the resolved target is under the core root, emit
    the `@core/`-prefixed remainder passed through the (ineffective)
    extension-stripping substitution. -/
def aliasRewriteRef (coreRoot D : AbsPath) (p : List Char) : Option (List Char) :=
  let T := resolve D p
  if is_relative_to T coreRoot then
    let w := T.drop coreRoot.length
    some (stripExtSub ('@' :: 'c' :: 'o' :: 'r' :: 'e' :: '/' :: joinSlashRel w))
  else none

/-- A component of a normalized absolute path: nonempty, not a dot
    marker, and free of the separator. -/
def GoodComp (c : Comp) : Prop :=
  c ≠ [] ∧ c ≠ ['.'] ∧ c ≠ ['.', '.'] ∧ '/' ∉ c

instance : DecidablePred GoodComp := fun c => by unfold GoodComp; infer_instance

/-- All components of a path are good. -/
def GoodPath (P : AbsPath) : Prop :=
  ∀ c ∈ P, GoodComp c

instance : DecidablePred GoodPath := fun P => by unfold GoodPath; infer_instance

/-- Rendering an absolute path back to text with a leading slash, for
    talking about string-prefix (as opposed to component-prefix)
    comparisons. -/
def render (P : AbsPath) : List Char :=
  P.foldl (fun a c => a ++ '/' :: c) []

/-! ### Basic facts about the path model -/

theorem splitSlashAux_no_slash (s : List Char) (cur : List Char) (hcur : '/' ∉ cur) :
    ∀ part ∈ splitSlashAux s cur, '/' ∉ part := by
  induction s generalizing cur with
  | nil =>
    intro part hp
    simp only [splitSlashAux, List.mem_singleton] at hp
    subst hp
    simpa using hcur
  | cons c rest ih =>
    intro part hp
    by_cases h : c = '/'
    · simp only [splitSlashAux, if_pos h, List.mem_cons] at hp
      rcases hp with hp | hp
      · subst hp; simpa using hcur
      · exact ih [] (by simp) part hp
    · simp only [splitSlashAux, if_neg h] at hp
      refine ih (c :: cur) ?_ part hp
      intro hmem
      rcases List.mem_cons.mp hmem with h1 | h1
      · exact h h1.symm
      · exact hcur h1

theorem splitSlash_no_slash (s : List Char) : ∀ part ∈ splitSlash s, '/' ∉ part :=
  splitSlashAux_no_slash s [] (by simp)

theorem resolveComps_cons (base : AbsPath) (part : Comp) (parts : List Comp) :
    resolveComps base (part :: parts) = resolveComps (resolveStep base part) parts := rfl

theorem goodPath_dropLast {P : AbsPath} (h : GoodPath P) : GoodPath P.dropLast :=
  fun c hc => h c (List.mem_of_mem_dropLast hc)

theorem goodPath_take {P : AbsPath} (h : GoodPath P) (n : Nat) : GoodPath (P.take n) :=
  fun c hc => h c (List.mem_of_mem_take hc)

theorem goodPath_drop {P : AbsPath} (h : GoodPath P) (n : Nat) : GoodPath (P.drop n) :=
  fun c hc => h c (List.mem_of_mem_drop hc)

theorem goodPath_append {P Q : AbsPath} (h1 : GoodPath P) (h2 : GoodPath Q) :
    GoodPath (P ++ Q) := by
  intro c hc
  rcases List.mem_append.mp hc with hc | hc
  · exact h1 c hc
  · exact h2 c hc

theorem goodPath_resolveStep (acc : AbsPath) (part : Comp) (h : GoodPath acc)
    (hp : '/' ∉ part) : GoodPath (resolveStep acc part) := by
  unfold resolveStep
  by_cases h1 : part = [] ∨ part = ['.']
  · rw [if_pos h1]; exact h
  · rw [if_neg h1]
    by_cases h2 : part = ['.', '.']
    · rw [if_pos h2]
      exact goodPath_dropLast h
    · rw [if_neg h2]
      intro c hc
      rcases List.mem_append.mp hc with hc | hc
      · exact h c hc
      · push_neg at h1
        rcases List.mem_singleton.mp hc with rfl
        exact ⟨h1.1, h1.2, h2, hp⟩

theorem goodPath_resolveComps (base : AbsPath) (parts : List Comp)
    (h : GoodPath base) (hp : ∀ part ∈ parts, '/' ∉ part) :
    GoodPath (resolveComps base parts) := by
  induction parts generalizing base with
  | nil => exact h
  | cons part rest ih =>
    rw [resolveComps_cons]
    exact ih _ (goodPath_resolveStep _ _ h (hp part (by simp)))
      (fun q hq => hp q (by simp [hq]))

theorem goodPath_resolve (base : AbsPath) (s : List Char) (h : GoodPath base) :
    GoodPath (resolve base s) :=
  goodPath_resolveComps _ _ h (splitSlash_no_slash s)

theorem resolveComps_plain (base : AbsPath) (parts : List Comp)
    (hp : ∀ p ∈ parts, p ≠ [] ∧ p ≠ ['.'] ∧ p ≠ ['.', '.']) :
    resolveComps base parts = base ++ parts := by
  induction parts generalizing base with
  | nil => simp [resolveComps]
  | cons part rest ih =>
    rw [resolveComps_cons]
    have h := hp part (by simp)
    have hstep : resolveStep base part = base ++ [part] := by
      unfold resolveStep
      rw [if_neg (by tauto), if_neg h.2.2]
    rw [hstep, ih _ (fun q hq => hp q (by simp [hq])), List.append_assoc]
    rfl

theorem commonPrefixLen_le_left (t s : AbsPath) : commonPrefixLen t s ≤ t.length := by
  induction t generalizing s with
  | nil => cases s <;> simp [commonPrefixLen]
  | cons a as ih =>
    cases s with
    | nil => simp [commonPrefixLen]
    | cons b bs =>
      by_cases h : a = b
      · simpa [commonPrefixLen, h] using ih bs
      · simp [commonPrefixLen, h]

theorem commonPrefixLen_le_right (t s : AbsPath) : commonPrefixLen t s ≤ s.length := by
  induction t generalizing s with
  | nil => cases s <;> simp [commonPrefixLen]
  | cons a as ih =>
    cases s with
    | nil => simp [commonPrefixLen]
    | cons b bs =>
      by_cases h : a = b
      · simpa [commonPrefixLen, h] using ih bs
      · simp [commonPrefixLen, h]

theorem take_commonPrefixLen (t s : AbsPath) :
    t.take (commonPrefixLen t s) = s.take (commonPrefixLen t s) := by
  induction t generalizing s with
  | nil => cases s <;> simp [commonPrefixLen]
  | cons a as ih =>
    cases s with
    | nil => simp [commonPrefixLen]
    | cons b bs =>
      by_cases h : a = b
      · simp [commonPrefixLen, h, ih bs]
      · simp [commonPrefixLen, h]

theorem resolveComps_replicate_dotdot (D : AbsPath) (k : Nat) :
    resolveComps D (List.replicate k ['.', '.']) = D.take (D.length - k) := by
  induction k generalizing D with
  | zero => simp [resolveComps]
  | succ k ih =>
    rw [List.replicate_succ, resolveComps_cons]
    have hstep : resolveStep D ['.', '.'] = D.dropLast := by
      unfold resolveStep
      rw [if_neg (by simp), if_pos rfl]
    have h1 : D.dropLast.length = D.length - 1 := by simp
    rw [hstep, ih, h1, List.dropLast_eq_take, List.take_take]
    congr 1
    omega

theorem splitSlashAux_append (c : List Char) (s cur : List Char) (hc : '/' ∉ c) :
    splitSlashAux (c ++ s) cur = splitSlashAux s (c.reverse ++ cur) := by
  induction c generalizing cur with
  | nil => simp
  | cons a as ih =>
    have ha : ¬ a = '/' := fun h => hc (by simp [h])
    simp only [List.cons_append, splitSlashAux, if_neg ha, List.append_eq]
    rw [ih _ (fun h => hc (by simp [h]))]
    congr 1
    simp

theorem splitSlash_joinSlash (l : List Comp) (hne : l ≠ [])
    (h : ∀ c ∈ l, c ≠ [] ∧ '/' ∉ c) :
    splitSlash (joinSlash l) = l := by
  induction l with
  | nil => exact absurd rfl hne
  | cons c rest ih =>
    cases rest with
    | nil =>
      have hc := h c (by simp)
      have h2 := splitSlashAux_append c [] [] hc.2
      simp only [List.append_nil, splitSlashAux, List.reverse_reverse] at h2
      simpa [splitSlash, joinSlash] using h2
    | cons c₂ rest₂ =>
      have hc := h c (by simp)
      have hjoin : joinSlash (c :: c₂ :: rest₂) = c ++ '/' :: joinSlash (c₂ :: rest₂) := rfl
      unfold splitSlash
      rw [hjoin, splitSlashAux_append c _ [] hc.2]
      simp only [List.append_nil, splitSlashAux, if_pos rfl, List.reverse_reverse]
      exact congrArg (List.cons c) (ih (by simp) (fun q hq => h q (by simp [hq])))

theorem resolve_dot (D : AbsPath) : resolve D ['.'] = D := by
  show resolveComps D (splitSlash ['.']) = D
  have hsplit : splitSlash ['.'] = [['.']] := by decide
  rw [hsplit, resolveComps_cons]
  have hstep : resolveStep D ['.'] = D := by
    unfold resolveStep
    rw [if_pos (Or.inr rfl)]
  rw [hstep]
  rfl

theorem resolve_relpathText (T D : AbsPath) (hT : GoodPath T) :
    resolve D (relpathText T D) = T := by
  unfold relpathText
  by_cases hnil : relpathComps T D = []
  · rw [if_pos hnil]
    unfold relpathComps at hnil
    rcases List.append_eq_nil.mp hnil with ⟨h1, h2⟩
    have hlen1 : D.length - commonPrefixLen T D = 0 := by
      have := congrArg List.length h1
      simpa using this
    have hlen2 : T.length ≤ commonPrefixLen T D := by
      have := congrArg List.length h2
      simp at this
      omega
    have hiD : commonPrefixLen T D = D.length :=
      Nat.le_antisymm (commonPrefixLen_le_right T D) (by omega)
    have hiT : commonPrefixLen T D = T.length :=
      Nat.le_antisymm (commonPrefixLen_le_left T D) hlen2
    have hTD : T = D := by
      calc T = T.take (commonPrefixLen T D) := by rw [hiT, List.take_length]
        _ = D.take (commonPrefixLen T D) := take_commonPrefixLen T D
        _ = D := by rw [hiD, List.take_length]
    rw [resolve_dot, hTD]
  · rw [if_neg hnil]
    have hcomps : ∀ c ∈ relpathComps T D, c ≠ [] ∧ '/' ∉ c := by
      intro c hc
      unfold relpathComps at hc
      rcases List.mem_append.mp hc with hc | hc
      · have hcc := List.eq_of_mem_replicate hc
        subst hcc
        exact ⟨by simp, by decide⟩
      · have hg := hT c (List.mem_of_mem_drop hc)
        exact ⟨hg.1, hg.2.2.2⟩
    have hgoodparts : ∀ p ∈ T.drop (commonPrefixLen T D),
        p ≠ [] ∧ p ≠ ['.'] ∧ p ≠ ['.', '.'] := by
      intro p hp
      have hg := hT p (List.mem_of_mem_drop hp)
      exact ⟨hg.1, hg.2.1, hg.2.2.1⟩
    unfold resolve
    rw [splitSlash_joinSlash _ hnil hcomps]
    unfold relpathComps
    show resolveComps D _ = T
    unfold resolveComps
    rw [List.foldl_append]
    have hrep := resolveComps_replicate_dotdot D (D.length - commonPrefixLen T D)
    unfold resolveComps at hrep
    rw [hrep]
    have hi : D.length - (D.length - commonPrefixLen T D) = commonPrefixLen T D := by
      have := commonPrefixLen_le_right T D
      omega
    rw [hi]
    have hplain := resolveComps_plain (D.take (commonPrefixLen T D))
        (T.drop (commonPrefixLen T D)) hgoodparts
    unfold resolveComps at hplain
    rw [hplain, ← take_commonPrefixLen, List.take_append_drop]

theorem splitSlash_dotSlash (s : List Char) :
    splitSlash ('.' :: '/' :: s) = ['.'] :: splitSlash s := by
  show splitSlashAux ('.' :: '/' :: s) [] = ['.'] :: splitSlashAux s []
  have h1 : ¬ ('.' : Char) = '/' := by decide
  simp only [splitSlashAux, if_neg h1, if_pos rfl]
  rfl

theorem resolve_addDotSlash (D : AbsPath) (s : List Char) :
    resolve D (addDotSlash s) = resolve D s := by
  unfold addDotSlash
  by_cases h : ['.', '.', '/'].isPrefixOf s ∨ ['.', '/'].isPrefixOf s
  · rw [if_pos h]
  · rw [if_neg h]
    unfold resolve
    rw [splitSlash_dotSlash, resolveComps_cons]
    have hstep : resolveStep D ['.'] = D := by
      unfold resolveStep
      rw [if_pos (Or.inr rfl)]
    rw [hstep]

theorem is_relative_to_iff (path base : AbsPath) :
    is_relative_to path base = true ↔ base <+: path :=
  List.isPrefixOf_iff_prefix

theorem is_relative_to_eq_false_of_not_prefix {path base : AbsPath}
    (h : ¬ base <+: path) : is_relative_to path base = false := by
  cases hb : is_relative_to path base with
  | false => rfl
  | true => exact absurd ((is_relative_to_iff path base).mp hb) h

theorem not_prefix_append_of_unnested {old new : AbsPath} (suffix : AbsPath)
    (h₁ : ¬ old <+: new) (h₂ : ¬ new <+: old) : ¬ old <+: new ++ suffix := by
  intro h
  rcases Nat.le_total old.length new.length with hle | hle
  · exact h₁ (List.prefix_of_prefix_length_le h (List.prefix_append _ _) hle)
  · exact h₂ (List.prefix_of_prefix_length_le (List.prefix_append _ _) h hle)

/-! ### Claim C1 — Relocation Case A identity preservation -/

/-- C1: for every reference rewritten by the Relocation decision's Case A
(referencing file `F` outside the new root, resolved target `T` inside the old
root), resolving the emitted replacement text against the referencing file's
directory yields `newRoot ++ (T minus oldRoot)`: the rewritten reference denotes
the same module in its new home. -/
theorem relocation_caseA_identity (cfg : RelocCfg) (F : AbsPath) (p newText : List Char)
    (hD : GoodPath F.dropLast) (hNewRoot : GoodPath cfg.newRoot)
    (hOut : is_relative_to F cfg.newRoot = false)
    (hIn : is_relative_to (resolve F.dropLast p) cfg.oldRoot = true)
    (hRes : relocRewriteRef cfg F p = some newText) :
    resolve F.dropLast newText
      = cfg.newRoot ++ (resolve F.dropLast p).drop cfg.oldRoot.length := by
  have hT : GoodPath (resolve F.dropLast p) := goodPath_resolve _ _ hD
  have hdropgood : ∀ q ∈ (resolve F.dropLast p).drop cfg.oldRoot.length,
      q ≠ [] ∧ q ≠ ['.'] ∧ q ≠ ['.', '.'] := by
    intro q hq
    have hg := goodPath_drop hT cfg.oldRoot.length q hq
    exact ⟨hg.1, hg.2.1, hg.2.2.1⟩
  have hplain := resolveComps_plain cfg.newRoot _ hdropgood
  have hgood2 : GoodPath (resolveComps cfg.newRoot
      ((resolve F.dropLast p).drop cfg.oldRoot.length)) := by
    rw [hplain]
    exact goodPath_append hNewRoot (goodPath_drop hT _)
  simp [relocRewriteRef, hOut, hIn] at hRes
  subst hRes
  rw [resolve_addDotSlash, resolve_relpathText _ _ hgood2, hplain]

/-- Witness for C1 at the spec's first concrete scenario: file
`src/entrypoints/app.ts`, reference `../components/Btn`, move
`src/components` to `src/cli/components`. -/
theorem relocation_caseA_identity_witness :
    resolve ((["src".data, "entrypoints".data, "app.ts".data] : AbsPath).dropLast)
        "../cli/components/Btn".data
      = ["src".data, "cli".data, "components".data]
          ++ (resolve ((["src".data, "entrypoints".data, "app.ts".data] : AbsPath).dropLast)
                "../components/Btn".data).drop 2 :=
  relocation_caseA_identity
    ⟨["src".data, "components".data], ["src".data, "cli".data, "components".data]⟩
    ["src".data, "entrypoints".data, "app.ts".data]
    "../components/Btn".data "../cli/components/Btn".data
    (by decide) (by decide) (by decide) (by decide) (by decide)

/-! ### Claim C3 — non-interference for targets outside the configured roots -/

/-- C3 (amended): a reference whose resolved target is outside the configured
root is left Unchanged by the Aliasing decision always, and by the Relocation
decision whenever the referencing file is outside the new root. (A referencing
file inside the new root may still be rewritten — see the counterexample.) -/
theorem noninterference_outside_roots (cfg : RelocCfg) (coreRoot F D : AbsPath)
    (p : List Char)
    (hF : is_relative_to F cfg.newRoot = false)
    (hReloc : is_relative_to (resolve F.dropLast p) cfg.oldRoot = false)
    (hAlias : is_relative_to (resolve D p) coreRoot = false) :
    relocRewriteRef cfg F p = none ∧ aliasRewriteRef coreRoot D p = none := by
  constructor
  · simp [relocRewriteRef, hF, hReloc]
  · simp [aliasRewriteRef, hAlias]

/-- C3 counterexample: a referencing file inside the new components root whose
resolved target is outside the old root is not always Unchanged — Scenario B
recanonicalizes `./foo/../bar` to `./bar` and emits Replaced. -/
theorem noninterference_fails_inside_newRoot :
    is_relative_to
        (resolve ["src".data, "cli".data, "components".data] "./foo/../bar".data)
        ["src".data, "components".data] = false ∧
    relocRewriteRef
        ⟨["src".data, "components".data], ["src".data, "cli".data, "components".data]⟩
        ["src".data, "cli".data, "components".data, "a.ts".data]
        "./foo/../bar".data = some "./bar".data := by decide

/-- Witness for the amended C3 at a concrete reference `../other/y` resolving
outside both configured roots. -/
theorem noninterference_outside_roots_witness :
    relocRewriteRef
        ⟨["src".data, "components".data], ["src".data, "cli".data, "components".data]⟩
        ["src".data, "entrypoints".data, "app.ts".data] "../other/y".data = none ∧
    aliasRewriteRef ["src".data, "core".data] ["src".data, "cli".data]
        "../other/y".data = none :=
  noninterference_outside_roots
    ⟨["src".data, "components".data], ["src".data, "cli".data, "components".data]⟩
    ["src".data, "core".data]
    ["src".data, "entrypoints".data, "app.ts".data]
    ["src".data, "cli".data]
    "../other/y".data (by decide) (by decide) (by decide)

/-! ### Claim C4 — Relocation idempotence -/

/-- C4: with the two configured roots not nested in one another (true of the
tool's configuration), any reference the Relocation decision rewrites is left
Unchanged when the decision runs again on the rewritten text with the
referencing file at its (unchanged, post-move) location. -/
theorem relocation_idempotent (cfg : RelocCfg) (F : AbsPath) (p p₂ : List Char)
    (hF : GoodPath F) (hNewRoot : GoodPath cfg.newRoot)
    (h₁ : ¬ cfg.oldRoot <+: cfg.newRoot) (h₂ : ¬ cfg.newRoot <+: cfg.oldRoot)
    (hRes : relocRewriteRef cfg F p = some p₂) :
    relocRewriteRef cfg F p₂ = none := by
  have hD : GoodPath F.dropLast := goodPath_dropLast hF
  have hT : GoodPath (resolve F.dropLast p) := goodPath_resolve _ _ hD
  cases hNew : is_relative_to F cfg.newRoot with
  | false =>
    cases hIn : is_relative_to (resolve F.dropLast p) cfg.oldRoot with
    | false => simp [relocRewriteRef, hNew, hIn] at hRes
    | true =>
      have hdropgood : ∀ q ∈ (resolve F.dropLast p).drop cfg.oldRoot.length,
          q ≠ [] ∧ q ≠ ['.'] ∧ q ≠ ['.', '.'] := by
        intro q hq
        have hg := goodPath_drop hT cfg.oldRoot.length q hq
        exact ⟨hg.1, hg.2.1, hg.2.2.1⟩
      have hplain := resolveComps_plain cfg.newRoot _ hdropgood
      have hgood2 : GoodPath (resolveComps cfg.newRoot
          ((resolve F.dropLast p).drop cfg.oldRoot.length)) := by
        rw [hplain]
        exact goodPath_append hNewRoot (goodPath_drop hT _)
      simp [relocRewriteRef, hNew, hIn] at hRes
      have hres2 : resolve F.dropLast p₂ = resolveComps cfg.newRoot
          ((resolve F.dropLast p).drop cfg.oldRoot.length) := by
        rw [← hRes, resolve_addDotSlash, resolve_relpathText _ _ hgood2]
      have hnotunder : is_relative_to (resolve F.dropLast p₂) cfg.oldRoot = false := by
        apply is_relative_to_eq_false_of_not_prefix
        rw [hres2, hplain]
        exact not_prefix_append_of_unnested _ h₁ h₂
      simp [relocRewriteRef, hNew, hnotunder]
  | true =>
    cases hIn : is_relative_to (resolve F.dropLast p) cfg.oldRoot with
    | true => simp [relocRewriteRef, hNew, hIn] at hRes
    | false =>
      simp [relocRewriteRef, hNew, hIn] at hRes
      obtain ⟨hne, hcand⟩ := hRes
      have hres2 : resolve F.dropLast p₂ = resolve F.dropLast p := by
        rw [← hcand, resolve_addDotSlash, resolve_relpathText _ _ hT]
      simp only [relocRewriteRef, hNew]
      rw [hres2]
      simp [hIn, hcand]

/-- Witness for C4 at the spec's first concrete scenario: the first run turns
`../components/Btn` into `../cli/components/Btn`; the second run leaves that
reference Unchanged. -/
theorem relocation_idempotent_witness :
    relocRewriteRef
        ⟨["src".data, "components".data], ["src".data, "cli".data, "components".data]⟩
        ["src".data, "entrypoints".data, "app.ts".data]
        "../cli/components/Btn".data = none :=
  relocation_idempotent
    ⟨["src".data, "components".data], ["src".data, "cli".data, "components".data]⟩
    ["src".data, "entrypoints".data, "app.ts".data]
    "../components/Btn".data "../cli/components/Btn".data
    (by decide) (by decide) (by decide) (by decide) (by decide)

/-! ### Claim C5 — containment check is component-wise -/

/-- C5: the containment check of both scripts holds exactly when the candidate
equals the root or extends it by whole components, and in particular it rejects
the sibling directory `components2` although the rendered root text
`/src/components` is a character-level prefix of the rendered candidate text
`/src/components2/x`. -/
theorem isUnder_componentwise :
    (∀ c r : AbsPath, is_relative_to c r = true ↔ (c = r ∨ (r <+: c ∧ c ≠ r))) ∧
    (is_relative_to (resolve ["src".data, "entrypoints".data] "../components2/x".data)
        ["src".data, "components".data] = false ∧
      (render ["src".data, "components".data]).isPrefixOf
        (render (resolve ["src".data, "entrypoints".data] "../components2/x".data))
          = true) := by
  constructor
  · intro c r
    rw [is_relative_to_iff]
    constructor
    · intro h
      by_cases hc : c = r
      · exact Or.inl hc
      · exact Or.inr ⟨h, hc⟩
    · rintro (rfl | ⟨h, _⟩)
      · exact List.prefix_refl c
      · exact h
  · decide

/-! ### Claim C2 — the Aliasing extension strip never fires -/

/-- C2 (evaluating the code at the failing input): for the reference
`../core/utils/file.ts` in a file of `src/cli`, the Aliasing decision emits
`@core/utils/file.ts` — the `.ts` extension is kept, because the substitution
pattern written in the source (`r'\\.(ts|tsx)$'`, a doubled backslash in a raw
string) matches a literal backslash and so never fires on a normal path. -/
theorem alias_extension_not_stripped :
    aliasRewriteRef ["src".data, "core".data] ["src".data, "cli".data]
        "../core/utils/file.ts".data = some "@core/utils/file.ts".data ∧
    "@core/utils/file.ts".data ≠ "@core/utils/file".data := by decide

/-! ### Claim C7 — existence checks before processing -/

/-- The file-processing gate of `update_imports.main` (lines 142–157): when the
new components root does not exist the run returns before walking any file;
otherwise the walk processes every candidate file not under the old root. -/
def relocMainProcessed (newRootExists : Bool) (cfg : RelocCfg)
    (walked : List AbsPath) : List AbsPath :=
  if newRootExists then walked.filter (fun f => !(is_relative_to f cfg.oldRoot)) else []

/-- The file-processing gate of `use_core_alias.main` (lines 110–124): each
target directory is a pair (exists, walked files); a missing directory is
skipped with a warning and every existing one contributes its files. The
existence of the core root is never consulted — the parameter is unused
exactly because no line of `main` reads it. -/
def aliasMainProcessed (_coreRootExists : Bool)
    (targetDirs : List (Bool × List AbsPath)) : List AbsPath :=
  (targetDirs.filter (fun td => td.1)).flatMap (fun td => td.2)

/-- C7 counterexample: the Aliasing tool does not abort when the core root is
missing — with `coreRootExists = false` it still processes every file of an
existing target directory. -/
theorem alias_processes_without_coreRoot :
    aliasMainProcessed false [(true, [["src".data, "cli".data, "a.ts".data]])]
      = [["src".data, "cli".data, "a.ts".data]] ∧
    ([["src".data, "cli".data, "a.ts".data]] : List AbsPath) ≠ [] := by decide

/-- C7 (amended): the Relocation tool's run processes no file when the new
components root is missing, while the Aliasing tool's set of processed files
does not depend on whether the core root exists at all. -/
theorem root_existence_gate (cfg : RelocCfg) (walked : List AbsPath)
    (e : Bool) (ds : List (Bool × List AbsPath)) :
    relocMainProcessed false cfg walked = [] ∧
    aliasMainProcessed e ds = aliasMainProcessed true ds :=
  ⟨rfl, rfl⟩

/-! ### The Reference Locator

An executable embedding of `re.search` for the two import regexes

* `update_imports.py` line 20: `import\s+(?:.+?\s+from\s+)?(['"])([.][^'"]+)\1`
* `use_core_alias.py` line 21: `import\s+(?:.+?\s+from\s+)?(['"])([.]{2}/[^'"]+)\1`

following Python's backtracking order: leftmost starting position first; at a
position, the greedy `\s+` prefers the longest run, the optional group is
preferred over its absence, the lazy `.+?` prefers the shortest extent, and
`[^'"]+` before the backreference is forced maximal (a shorter run would have
to be followed by the closing quote, yet each character given back is a
non-quote). The inner `\s+` runs are likewise forced maximal because the
following literal (`from` or a quote) never begins with whitespace. -/

/-- Python's `\s` on the ASCII range (the whitespace the source lines use). -/
def isSpaceChar (c : Char) : Bool :=
  c = ' ' || c = '\t' || c = '\n' || c = '\r' || c = '\x0b' || c = '\x0c'

def isQuoteChar (c : Char) : Bool := c = '\'' || c = '"'

/-- A regex match: group 0 is `pre ++ quote :: path ++ [quote]`, group 1 the
quote character, group 2 the path; `pre` is the part of the match before the
opening quote (`import`, whitespace, and the optional `… from` chunk). -/
structure RMatch where
  pre : List Char
  quote : Char
  path : List Char
deriving DecidableEq, Repr

def RMatch.g0 (m : RMatch) : List Char := m.pre ++ m.quote :: m.path ++ [m.quote]

/-- Tail `(['"])([.][^'"]+)\1` of the Relocation regex at the opening-quote
position: group 2 is the maximal run of non-quote characters after the quote,
which must begin with `.`, have at least two characters, and be followed by
the same quote character. -/
def relocTail (s : List Char) : Option (Char × List Char) :=
  match s with
  | [] => none
  | q :: rest =>
    let run := rest.takeWhile (fun c => !(isQuoteChar c))
    if isQuoteChar q = true ∧ ['.'] <+: run ∧ 2 ≤ run.length
        ∧ (rest.drop run.length).head? = some q
    then some (q, run) else none

/-- Tail `(['"])([.]{2}/[^'"]+)\1` of the Aliasing regex: as `relocTail` but
group 2 must begin with `../` and have at least four characters. -/
def aliasTail (s : List Char) : Option (Char × List Char) :=
  match s with
  | [] => none
  | q :: rest =>
    let run := rest.takeWhile (fun c => !(isQuoteChar c))
    if isQuoteChar q = true ∧ ['.', '.', '/'] <+: run ∧ 4 ≤ run.length
        ∧ (rest.drop run.length).head? = some q
    then some (q, run) else none

/-- `\s+from\s+` after the lazy dots: both whitespace runs are maximal.
Returns the consumed text and the rest. -/
def afterDots (s : List Char) : Option (List Char × List Char) :=
  let w1 := s.takeWhile isSpaceChar
  let r1 := s.drop w1.length
  if w1 = [] then none
  else if ['f', 'r', 'o', 'm'] <+: r1 then
    let r2 := r1.drop 4
    let w2 := r2.takeWhile isSpaceChar
    let r3 := r2.drop w2.length
    if w2 = [] then none
    else some (w1 ++ ['f', 'r', 'o', 'm'] ++ w2, r3)
  else none

/-- Closing a `.+?\s+from\s+` group at the current spot and running the tail. -/
def finishFrom (tail : List Char → Option (Char × List Char))
    (pre : List Char) (s : List Char) : Option RMatch :=
  match afterDots s with
  | none => none
  | some (mid, r3) =>
    match tail r3 with
    | none => none
    | some (q, path) => some ⟨pre ++ mid, q, path⟩

/-- The lazy `.+?` of the optional group, shortest extent first; `.` does not
match a newline. `pre` accumulates the consumed characters of the match. -/
def tryDots (tail : List Char → Option (Char × List Char)) :
    List Char → List Char → Option RMatch
  | _, [] => none
  | pre, c :: s =>
    if c = '\n' then none
    else (finishFrom tail (pre ++ [c]) s) <|> tryDots tail (pre ++ [c]) s

/-- After `import\s+`: the optional group `(?:.+?\s+from\s+)?` is greedy, so
its presence is preferred over going straight to the quote. -/
def tryBody (tail : List Char → Option (Char × List Char))
    (pre : List Char) (s : List Char) : Option RMatch :=
  (tryDots tail pre s) <|>
  (match tail s with
   | some (q, path) => some ⟨pre, q, path⟩
   | none => none)

/-- The greedy leading `\s+`: longest split first. `w` is the not yet consumed
rest of the whitespace run, `r` what follows the run. -/
def tryWs (tail : List Char → Option (Char × List Char)) :
    List Char → List Char → List Char → Option RMatch
  | _, [], _ => none
  | pre, c :: w, r => (tryWs tail (pre ++ [c]) w r) <|> (tryBody tail (pre ++ [c]) (w ++ r))

/-- A match of the import regex anchored at the current position. -/
def matchAtWith (tail : List Char → Option (Char × List Char))
    (s : List Char) : Option RMatch :=
  if ['i', 'm', 'p', 'o', 'r', 't'] <+: s then
    let s1 := s.drop 6
    let w := s1.takeWhile isSpaceChar
    let r := s1.drop w.length
    tryWs tail ['i', 'm', 'p', 'o', 'r', 't'] w r
  else none

/-- `re.search`: the leftmost position with a match wins. -/
def searchWith (tail : List Char → Option (Char × List Char)) :
    List Char → Option RMatch
  | [] => matchAtWith tail []
  | s@(_ :: rest) => (matchAtWith tail s) <|> searchWith tail rest

/-- `IMPORT_REGEX.search` of `update_imports.py` (line 20). -/
def relocSearch : List Char → Option RMatch := searchWith relocTail

/-- `IMPORT_REGEX.search` of `use_core_alias.py` (line 21). -/
def aliasSearch : List Char → Option RMatch := searchWith aliasTail

/-! ### Python `str.replace` and one-line rewriting -/

/-- Python `s.replace(old, new)` for a nonempty `old`: every left-to-right
non-overlapping occurrence is replaced (auxiliary, structural on fuel). -/
def replaceAllF : Nat → List Char → List Char → List Char → List Char
  | 0, s, _, _ => s
  | _ + 1, [], _, _ => []
  | n + 1, c :: s, pat, rep =>
    if pat ≠ [] ∧ pat <+: (c :: s) then
      rep ++ replaceAllF n ((c :: s).drop pat.length) pat rep
    else c :: replaceAllF n s pat rep

/-- Python `s.replace(old, new)` for a nonempty `old`. -/
def replaceAll (s pat rep : List Char) : List Char :=
  replaceAllF s.length s pat rep

/-- The starting positions at which `pat` occurs inside `s`. -/
def occPositions (s pat : List Char) : List Nat :=
  (List.range (s.length + 1)).filter (fun i => pat.isPrefixOf (s.drop i))

/-- One line of `use_core_alias.update_file_imports` (lines 46–71): locate the
first reference, decide, and on Replaced substitute the path text inside the
matched statement and the statement inside the line — both via Python
`str.replace`, which replaces every occurrence. `some` is returned exactly
when the code marks the line modified. -/
def aliasProcessLine (coreRoot D : AbsPath) (line : List Char) : Option (List Char) :=
  match aliasSearch line with
  | none => none
  | some m =>
    match aliasRewriteRef coreRoot D m.path with
    | none => none
    | some p₂ => some (replaceAll line m.g0 (replaceAll m.g0 m.path p₂))

/-- One line of `update_imports.update_file_imports` (lines 48–100), same
substitution scheme as `aliasProcessLine`. -/
def relocProcessLine (cfg : RelocCfg) (F : AbsPath) (line : List Char) : Option (List Char) :=
  match relocSearch line with
  | none => none
  | some m =>
    match relocRewriteRef cfg F m.path with
    | none => none
    | some p₂ => some (replaceAll line m.g0 (replaceAll m.g0 m.path p₂))

/-! ### What a successful locator match implies -/

theorem takeWhile_append_drop_self (l : List Char) (p : Char → Bool) :
    l.takeWhile p ++ l.drop (l.takeWhile p).length = l := by
  obtain ⟨t, ht⟩ := List.takeWhile_prefix p (l := l)
  calc l.takeWhile p ++ l.drop (l.takeWhile p).length
      = l.takeWhile p ++ (l.takeWhile p ++ t).drop (l.takeWhile p).length := by rw [ht]
    _ = l.takeWhile p ++ t := by rw [List.drop_left]
    _ = l := ht

theorem afterDots_some {s mid r3 : List Char} (h : afterDots s = some (mid, r3)) :
    r3 <:+ s := by
  simp only [afterDots] at h
  split at h
  · cases h
  · split at h
    · split at h
      · cases h
      · simp only [Option.some.injEq, Prod.mk.injEq] at h
        obtain ⟨h1, h2⟩ := h
        subst h2
        exact ((List.drop_suffix _ _).trans (List.drop_suffix _ _)).trans
          (List.drop_suffix _ _)
    · cases h

theorem finishFrom_some {tail : List Char → Option (Char × List Char)}
    {pre s : List Char} {m : RMatch} (h : finishFrom tail pre s = some m) :
    ∃ s', s' <:+ s ∧ tail s' = some (m.quote, m.path) := by
  unfold finishFrom at h
  cases h1 : afterDots s with
  | none => rw [h1] at h; cases h
  | some midr =>
    rw [h1] at h
    obtain ⟨mid, r3⟩ := midr
    dsimp only at h
    cases h2 : tail r3 with
    | none => rw [h2] at h; cases h
    | some qp =>
      rw [h2] at h
      obtain ⟨q, path⟩ := qp
      simp only [Option.some.injEq] at h
      subst h
      exact ⟨r3, afterDots_some h1, h2⟩

theorem tryDots_some {tail : List Char → Option (Char × List Char)}
    {pre s : List Char} {m : RMatch} (h : tryDots tail pre s = some m) :
    ∃ s', s' <:+ s ∧ tail s' = some (m.quote, m.path) := by
  induction s generalizing pre with
  | nil => rw [tryDots] at h; cases h
  | cons c s ih =>
    rw [tryDots] at h
    split at h
    · cases h
    · cases h1 : finishFrom tail (pre ++ [c]) s with
      | some mFin =>
        rw [h1] at h
        simp only [Option.some_orElse, Option.some.injEq] at h
        subst h
        obtain ⟨s', hs, ht⟩ := finishFrom_some h1
        exact ⟨s', hs.trans (List.suffix_cons c s), ht⟩
      | none =>
        rw [h1] at h
        simp only [Option.none_orElse] at h
        obtain ⟨s', hs, ht⟩ := ih h
        exact ⟨s', hs.trans (List.suffix_cons c s), ht⟩

theorem tryBody_some {tail : List Char → Option (Char × List Char)}
    {pre s : List Char} {m : RMatch} (h : tryBody tail pre s = some m) :
    ∃ s', s' <:+ s ∧ tail s' = some (m.quote, m.path) := by
  unfold tryBody at h
  cases h1 : tryDots tail pre s with
  | some mDots =>
    rw [h1] at h
    simp only [Option.some_orElse, Option.some.injEq] at h
    subst h
    exact tryDots_some h1
  | none =>
    rw [h1] at h
    simp only [Option.none_orElse] at h
    cases h2 : tail s with
    | none => rw [h2] at h; cases h
    | some qp =>
      rw [h2] at h
      obtain ⟨q, path⟩ := qp
      simp only [Option.some.injEq] at h
      subst h
      exact ⟨s, List.suffix_refl s, h2⟩

theorem tryWs_some {tail : List Char → Option (Char × List Char)}
    {pre w r : List Char} {m : RMatch} (h : tryWs tail pre w r = some m) :
    ∃ s', s' <:+ (w ++ r) ∧ tail s' = some (m.quote, m.path) := by
  induction w generalizing pre with
  | nil => rw [tryWs] at h; cases h
  | cons c w ih =>
    rw [tryWs] at h
    cases h1 : tryWs tail (pre ++ [c]) w r with
    | some mWs =>
      rw [h1] at h
      simp only [Option.some_orElse, Option.some.injEq] at h
      subst h
      obtain ⟨s', hs, ht⟩ := ih h1
      exact ⟨s', hs.trans (List.suffix_cons c (w ++ r)), ht⟩
    | none =>
      rw [h1] at h
      simp only [Option.none_orElse] at h
      obtain ⟨s', hs, ht⟩ := tryBody_some h
      exact ⟨s', hs.trans (List.suffix_cons c (w ++ r)), ht⟩

theorem matchAtWith_some {tail : List Char → Option (Char × List Char)}
    {s : List Char} {m : RMatch} (h : matchAtWith tail s = some m) :
    ∃ s', s' <:+ s ∧ tail s' = some (m.quote, m.path) := by
  simp only [matchAtWith] at h
  split at h
  · obtain ⟨s', hs, ht⟩ := tryWs_some h
    refine ⟨s', ?_, ht⟩
    rw [takeWhile_append_drop_self (s.drop 6) isSpaceChar] at hs
    exact hs.trans (List.drop_suffix 6 s)
  · cases h

theorem searchWith_some {tail : List Char → Option (Char × List Char)}
    {line : List Char} {m : RMatch} (h : searchWith tail line = some m) :
    ∃ s', s' <:+ line ∧ tail s' = some (m.quote, m.path) := by
  induction line with
  | nil =>
    rw [searchWith] at h
    exact matchAtWith_some h
  | cons c rest ih =>
    rw [searchWith] at h
    cases h1 : matchAtWith tail (c :: rest) with
    | some mAt =>
      rw [h1] at h
      simp only [Option.some_orElse, Option.some.injEq] at h
      subst h
      exact matchAtWith_some h1
    | none =>
      rw [h1] at h
      simp only [Option.none_orElse] at h
      obtain ⟨s', hs, ht⟩ := ih h
      exact ⟨s', hs.trans (List.suffix_cons c rest), ht⟩

theorem searchWith_first {tail : List Char → Option (Char × List Char)}
    {line : List Char} {m : RMatch} (h : searchWith tail line = some m) :
    ∃ i, matchAtWith tail (line.drop i) = some m ∧
      ∀ j < i, matchAtWith tail (line.drop j) = none := by
  induction line with
  | nil =>
    rw [searchWith] at h
    exact ⟨0, h, fun j hj => absurd hj (by omega)⟩
  | cons c rest ih =>
    rw [searchWith] at h
    cases h1 : matchAtWith tail (c :: rest) with
    | some mAt =>
      rw [h1] at h
      simp only [Option.some_orElse, Option.some.injEq] at h
      subst h
      exact ⟨0, h1, fun j hj => absurd hj (by omega)⟩
    | none =>
      rw [h1] at h
      simp only [Option.none_orElse] at h
      obtain ⟨i, hm, hnone⟩ := ih h
      refine ⟨i + 1, by simpa using hm, ?_⟩
      intro j hj
      cases j with
      | zero => simpa using h1
      | succ j' => simpa using hnone j' (by omega)

theorem relocTail_some {s : List Char} {q : Char} {path : List Char}
    (h : relocTail s = some (q, path)) :
    isQuoteChar q = true ∧ ['.'] <+: path := by
  cases s with
  | nil => cases h
  | cons q0 rest0 =>
    simp only [relocTail] at h
    split at h
    · rename_i hcond
      simp only [Option.some.injEq, Prod.mk.injEq] at h
      obtain ⟨hq, hp⟩ := h
      subst hq
      subst hp
      exact ⟨hcond.1, hcond.2.1⟩
    · cases h

theorem aliasTail_some {s : List Char} {q : Char} {path : List Char}
    (h : aliasTail s = some (q, path)) :
    isQuoteChar q = true ∧ ['.', '.', '/'] <+: path
      ∧ ∃ rest, s = q :: '.' :: '.' :: '/' :: rest := by
  cases s with
  | nil => cases h
  | cons q0 rest0 =>
    simp only [aliasTail] at h
    split at h
    · rename_i hcond
      simp only [Option.some.injEq, Prod.mk.injEq] at h
      obtain ⟨hq, hp⟩ := h
      subst hq
      subst hp
      refine ⟨hcond.1, hcond.2.1, ?_⟩
      have hrun : rest0.takeWhile (fun c => !(isQuoteChar c)) <+: rest0 :=
        List.takeWhile_prefix _
      obtain ⟨t, ht⟩ := hcond.2.1.trans hrun
      exact ⟨t, by rw [← ht]; rfl⟩
    · cases h

/-! ### Claim C8 — what the locators match -/

/-- C8 (amended): the Relocation tool's locator only ever returns a quoted
path beginning with `.`, the Aliasing tool's locator only one beginning with
`../` (so `./`-imports are found by the Relocation tool but not by the
Aliasing tool — see the counterexample), and both return the match at the
leftmost matching position of the line only. -/
theorem locator_relative_only_first_match :
    (∀ line m, relocSearch line = some m → ['.'] <+: m.path) ∧
    (∀ line m, aliasSearch line = some m → ['.', '.', '/'] <+: m.path) ∧
    (∀ line m, relocSearch line = some m →
      ∃ i, matchAtWith relocTail (line.drop i) = some m ∧
        ∀ j < i, matchAtWith relocTail (line.drop j) = none) ∧
    (∀ line m, aliasSearch line = some m →
      ∃ i, matchAtWith aliasTail (line.drop i) = some m ∧
        ∀ j < i, matchAtWith aliasTail (line.drop j) = none) := by
  refine ⟨?_, ?_, ?_, ?_⟩
  · intro line m h
    obtain ⟨s', _, ht⟩ := searchWith_some h
    exact (relocTail_some ht).2
  · intro line m h
    obtain ⟨s', _, ht⟩ := searchWith_some h
    exact (aliasTail_some ht).2.1
  · intro line m h
    exact searchWith_first h
  · intro line m h
    exact searchWith_first h

/-- C8 counterexample: the `./a` import is matched by the Relocation locator
but missed entirely by the Aliasing locator, whose paths must begin `../`. -/
theorem alias_locator_misses_dotSlash :
    aliasSearch "import x from './a'".data = none ∧
    relocSearch "import x from './a'".data
      = some ⟨"import x from ".data, '\'', "./a".data⟩ := by decide

/-- Witness for C8 at the line `import x from './a'`. -/
theorem locator_relative_only_first_match_witness :
    ['.'] <+: (⟨"import x from ".data, '\'', "./a".data⟩ : RMatch).path :=
  locator_relative_only_first_match.1 "import x from './a'".data
    ⟨"import x from ".data, '\'', "./a".data⟩ (by decide)

/-! ### Facts about Python `str.replace` -/

theorem replaceAllF_no_occ (pat rep : List Char) :
    ∀ (n : Nat) (s : List Char), s.length ≤ n → (∀ i, ¬ pat <+: s.drop i) →
      replaceAllF n s pat rep = s := by
  intro n
  induction n with
  | zero => intro s _ _; rfl
  | succ n ih =>
    intro s hs h
    cases s with
    | nil => rfl
    | cons c s' =>
      rw [replaceAllF, if_neg]
      · congr 1
        apply ih
        · simpa using Nat.le_of_succ_le_succ (by simpa using hs)
        · intro i hi
          exact h (i + 1) (by simpa using hi)
      · intro hcon
        exact h 0 (by simpa using hcon.2)

theorem replaceAllF_single (pat rep b : List Char) (hpat : pat ≠ []) :
    ∀ (n : Nat) (a : List Char), (a ++ pat ++ b).length ≤ n →
      (∀ i, pat <+: (a ++ pat ++ b).drop i → i = a.length) →
      replaceAllF n (a ++ pat ++ b) pat rep = a ++ rep ++ b := by
  intro n
  induction n with
  | zero =>
    intro a hlen _
    exfalso
    cases pat with
    | nil => exact hpat rfl
    | cons pc pt => simp at hlen
  | succ n ih =>
    intro a hlen huniq
    cases a with
    | nil =>
      simp only [List.nil_append] at hlen huniq ⊢
      cases pat with
      | nil => exact absurd rfl hpat
      | cons pc pt =>
        have hshape : (pc :: pt) ++ b = pc :: (pt ++ b) := rfl
        rw [hshape, replaceAllF, if_pos ?pos]
        case pos =>
          refine ⟨hpat, ?_⟩
          rw [← hshape]
          exact List.prefix_append _ _
        have hdrop : (pc :: (pt ++ b)).drop (pc :: pt).length = b := by
          rw [← hshape]
          exact List.drop_left _ _
        rw [hdrop]
        congr 1
        apply replaceAllF_no_occ (pc :: pt) rep
        · have := congrArg List.length hshape
          simp at this ⊢
          simp at hlen
          omega
        · intro i hi
          have hdropi : ((pc :: pt) ++ b).drop ((pc :: pt).length + i) = b.drop i := by
            rw [List.drop_append_eq_append_drop]
            simp
          have := huniq ((pc :: pt).length + i) (by rw [hdropi]; exact hi)
          simp at this
    | cons c a' =>
      have hshape : (c :: a') ++ pat ++ b = c :: (a' ++ pat ++ b) := rfl
      rw [hshape, replaceAllF, if_neg ?neg]
      case neg =>
        intro hcon
        have := huniq 0 (by
          rw [List.drop_zero, hshape]
          exact hcon.2)
        simp at this
      rw [ih a' ?len ?uniq]
      · rfl
      case len =>
        have := congrArg List.length hshape
        simp at this hlen ⊢
        omega
      case uniq =>
        intro i hi
        have := huniq (i + 1) (by
          rw [hshape]
          simpa using hi)
        simpa using this

theorem replaceAll_single (pat rep a b : List Char) (hpat : pat ≠ [])
    (huniq : ∀ i, pat <+: (a ++ pat ++ b).drop i → i = a.length) :
    replaceAll (a ++ pat ++ b) pat rep = a ++ rep ++ b :=
  replaceAllF_single pat rep b hpat _ a le_rfl huniq

theorem occPositions_single {s pat : List Char} {k : Nat}
    (hpat : pat ≠ []) (h : occPositions s pat = [k]) :
    ∀ i, pat <+: s.drop i → i = k := by
  intro i hi
  by_cases hle : i ≤ s.length
  · have hmem : i ∈ occPositions s pat := by
      unfold occPositions
      rw [List.mem_filter]
      exact ⟨List.mem_range.mpr (by omega), List.isPrefixOf_iff_prefix.mpr hi⟩
    rw [h] at hmem
    simpa using hmem
  · exfalso
    have hdrop : s.drop i = [] := List.drop_eq_nil_of_le (by omega)
    rw [hdrop] at hi
    exact hpat (List.prefix_nil.mp hi)

/-! ### Claim C9 — what a Replaced line preserves -/

/-- The single-occurrence substitution shape for the Aliasing tool's line
rewrite. -/
theorem aliasProcessLine_single (coreRoot D : AbsPath) (line a b : List Char)
    (m : RMatch) (p₂ : List Char)
    (hsearch : aliasSearch line = some m)
    (hdecide : aliasRewriteRef coreRoot D m.path = some p₂)
    (hline : line = a ++ m.g0 ++ b)
    (hstmt : occPositions line m.g0 = [a.length])
    (hpath : occPositions m.g0 m.path = [m.pre.length + 1]) :
    aliasProcessLine coreRoot D line
      = some (a ++ (m.pre ++ m.quote :: p₂ ++ [m.quote]) ++ b) := by
  have hpathne : m.path ≠ [] := by
    obtain ⟨s', -, ht⟩ := searchWith_some hsearch
    obtain ⟨-, hdots, -⟩ := aliasTail_some ht
    intro hcon
    rw [hcon] at hdots
    exact absurd (List.prefix_nil.mp hdots) (by simp)
  have hg0ne : m.g0 ≠ [] := by simp [RMatch.g0]
  have hg0eq : m.g0 = (m.pre ++ [m.quote]) ++ m.path ++ [m.quote] := by
    simp [RMatch.g0]
  have hinner : replaceAll m.g0 m.path p₂
      = (m.pre ++ [m.quote]) ++ p₂ ++ [m.quote] := by
    rw [hg0eq]
    apply replaceAll_single _ _ _ _ hpathne
    intro i hi
    have := occPositions_single hpathne hpath i (by rw [hg0eq]; exact hi)
    simpa using this
  have houter : replaceAll line m.g0 (replaceAll m.g0 m.path p₂)
      = a ++ (replaceAll m.g0 m.path p₂) ++ b := by
    conv_lhs => rw [hline]
    apply replaceAll_single _ _ _ _ hg0ne
    intro i hi
    exact occPositions_single hg0ne hstmt i (by rw [← hline] at hi; exact hi)
  unfold aliasProcessLine
  rw [hsearch]
  dsimp only
  rw [hdecide]
  dsimp only
  rw [houter, hinner]
  simp

/-- The single-occurrence substitution shape for the Relocation tool's line
rewrite (the substitution code of `update_imports.py` lines 94–99 is the same
as the Aliasing tool's). -/
theorem relocProcessLine_single (cfg : RelocCfg) (F : AbsPath) (line a b : List Char)
    (m : RMatch) (p₂ : List Char)
    (hsearch : relocSearch line = some m)
    (hdecide : relocRewriteRef cfg F m.path = some p₂)
    (hline : line = a ++ m.g0 ++ b)
    (hstmt : occPositions line m.g0 = [a.length])
    (hpath : occPositions m.g0 m.path = [m.pre.length + 1]) :
    relocProcessLine cfg F line
      = some (a ++ (m.pre ++ m.quote :: p₂ ++ [m.quote]) ++ b) := by
  have hpathne : m.path ≠ [] := by
    obtain ⟨s', -, ht⟩ := searchWith_some hsearch
    obtain ⟨-, hdots⟩ := relocTail_some ht
    intro hcon
    rw [hcon] at hdots
    exact absurd (List.prefix_nil.mp hdots) (by simp)
  have hg0ne : m.g0 ≠ [] := by simp [RMatch.g0]
  have hg0eq : m.g0 = (m.pre ++ [m.quote]) ++ m.path ++ [m.quote] := by
    simp [RMatch.g0]
  have hinner : replaceAll m.g0 m.path p₂
      = (m.pre ++ [m.quote]) ++ p₂ ++ [m.quote] := by
    rw [hg0eq]
    apply replaceAll_single _ _ _ _ hpathne
    intro i hi
    have := occPositions_single hpathne hpath i (by rw [hg0eq]; exact hi)
    simpa using this
  have houter : replaceAll line m.g0 (replaceAll m.g0 m.path p₂)
      = a ++ (replaceAll m.g0 m.path p₂) ++ b := by
    conv_lhs => rw [hline]
    apply replaceAll_single _ _ _ _ hg0ne
    intro i hi
    exact occPositions_single hg0ne hstmt i (by rw [← hline] at hi; exact hi)
  unfold relocProcessLine
  rw [hsearch]
  dsimp only
  rw [hdecide]
  dsimp only
  rw [houter, hinner]
  simp

/-- C9 (amended): on a Replaced line, under either strategy, the code
substitutes the rewritten path into the matched statement text and then
substitutes the rewritten statement for every occurrence of the statement
text in the line (Python `str.replace`); when the statement text occurs
exactly once in the line and the path text exactly once inside the
statement, only the quoted path changes: the quote character, the
`import … from` prefix and all other line content are preserved verbatim. -/
theorem single_occurrence_rewrite :
    (∀ (coreRoot D : AbsPath) (line a b : List Char) (m : RMatch) (p₂ : List Char),
      aliasSearch line = some m →
      aliasRewriteRef coreRoot D m.path = some p₂ →
      line = a ++ m.g0 ++ b →
      occPositions line m.g0 = [a.length] →
      occPositions m.g0 m.path = [m.pre.length + 1] →
      aliasProcessLine coreRoot D line
        = some (a ++ (m.pre ++ m.quote :: p₂ ++ [m.quote]) ++ b)) ∧
    (∀ (cfg : RelocCfg) (F : AbsPath) (line a b : List Char) (m : RMatch) (p₂ : List Char),
      relocSearch line = some m →
      relocRewriteRef cfg F m.path = some p₂ →
      line = a ++ m.g0 ++ b →
      occPositions line m.g0 = [a.length] →
      occPositions m.g0 m.path = [m.pre.length + 1] →
      relocProcessLine cfg F line
        = some (a ++ (m.pre ++ m.quote :: p₂ ++ [m.quote]) ++ b)) :=
  ⟨aliasProcessLine_single, relocProcessLine_single⟩

/-- C9 counterexample: on a line holding the same import statement twice, the
first match's statement text is substituted at every occurrence, so the second
statement — content outside the matched construct — changes as well. -/
theorem replacement_touches_all_occurrences :
    aliasProcessLine ["src".data, "core".data] ["src".data, "cli".data]
        "import a from '../core/x';import a from '../core/x';".data
      = some "import a from '@core/x';import a from '@core/x';".data ∧
    "import a from '@core/x';import a from '@core/x';".data
      ≠ "import a from '@core/x';import a from '../core/x';".data := by decide

/-- Witness for C9 at the single-import line `import a from '../core/x';`. -/
theorem single_occurrence_rewrite_witness :
    aliasProcessLine ["src".data, "core".data] ["src".data, "cli".data]
        "import a from '../core/x';".data
      = some (([] : List Char)
          ++ ("import a from ".data ++ '\'' :: "@core/x".data ++ ['\''])
          ++ ";".data) :=
  single_occurrence_rewrite.1 ["src".data, "core".data] ["src".data, "cli".data]
    "import a from '../core/x';".data [] ";".data
    ⟨"import a from ".data, '\'', "../core/x".data⟩ "@core/x".data
    (by decide) (by decide) (by decide) (by decide) (by decide)

/-! ### Character provenance through the Aliasing rewrite (towards C10) -/

theorem stripExtSub_spec (s : List Char) :
    stripExtSub s = s ∨ ∃ t, s = stripExtSub s ++ t ∧ t.length ≤ 5 := by
  unfold stripExtSub
  split
  · rename_i c rest heq
    split
    · right
      refine ⟨['\\', c, 't', 's', 'x'], ?_, by simp⟩
      have hs : s = s.reverse.reverse := by simp
      rw [hs, heq]
      simp
    · left; rfl
  · rename_i c rest heq
    split
    · right
      refine ⟨['\\', c, 't', 's'], ?_, by simp⟩
      have hs : s = s.reverse.reverse := by simp
      rw [hs, heq]
      simp
    · left; rfl
  · left; rfl

theorem splitSlashAux_chars (s : List Char) :
    ∀ (cur : List Char), ∀ part ∈ splitSlashAux s cur, ∀ c ∈ part, c ∈ s ∨ c ∈ cur := by
  induction s with
  | nil =>
    intro cur part hp c hc
    simp only [splitSlashAux, List.mem_singleton] at hp
    subst hp
    right
    simpa using hc
  | cons a s ih =>
    intro cur part hp c hc
    by_cases ha : a = '/'
    · rw [splitSlashAux, if_pos ha] at hp
      rcases List.mem_cons.mp hp with hp | hp
      · subst hp
        right
        simpa using hc
      · rcases ih [] part hp c hc with h | h
        · left; simp [h]
        · simp at h
    · rw [splitSlashAux, if_neg ha] at hp
      rcases ih (a :: cur) part hp c hc with h | h
      · left; simp [h]
      · rcases List.mem_cons.mp h with h | h
        · left; simp [h]
        · right; exact h

theorem splitSlash_chars (s : List Char) :
    ∀ part ∈ splitSlash s, ∀ c ∈ part, c ∈ s := by
  intro part hp c hc
  rcases splitSlashAux_chars s [] part hp c hc with h | h
  · exact h
  · simp at h

theorem resolveComps_mem (base : AbsPath) (parts : List Comp) :
    ∀ comp ∈ resolveComps base parts, comp ∈ base ∨ comp ∈ parts := by
  induction parts generalizing base with
  | nil => intro comp hc; exact Or.inl hc
  | cons part rest ih =>
    intro comp hc
    rw [resolveComps_cons] at hc
    rcases ih _ comp hc with hc | hc
    · unfold resolveStep at hc
      split at hc
      · exact Or.inl hc
      · split at hc
        · exact Or.inl (List.mem_of_mem_dropLast hc)
        · rcases List.mem_append.mp hc with hc | hc
          · exact Or.inl hc
          · right
            simp at hc
            simp [hc]
    · right; simp [hc]

theorem joinSlash_chars (l : List Comp) :
    ∀ c ∈ joinSlash l, c = '/' ∨ ∃ comp ∈ l, c ∈ comp := by
  induction l with
  | nil => simp [joinSlash]
  | cons c0 rest ih =>
    cases rest with
    | nil =>
      intro c hc
      right
      exact ⟨c0, by simp, by simpa [joinSlash] using hc⟩
    | cons c1 rest1 =>
      intro c hc
      rw [show joinSlash (c0 :: c1 :: rest1) = c0 ++ '/' :: joinSlash (c1 :: rest1)
        from rfl] at hc
      rcases List.mem_append.mp hc with hc | hc
      · right; exact ⟨c0, by simp, hc⟩
      · rcases List.mem_cons.mp hc with hc | hc
        · left; exact hc
        · rcases ih c hc with hc | ⟨comp, hcomp, hcc⟩
          · left; exact hc
          · right; exact ⟨comp, by simp [hcomp], hcc⟩

theorem joinSlashRel_chars (l : List Comp) :
    ∀ c ∈ joinSlashRel l, c = '.' ∨ c = '/' ∨ ∃ comp ∈ l, c ∈ comp := by
  intro c hc
  unfold joinSlashRel at hc
  split at hc
  · left; simpa using hc
  · rcases joinSlash_chars l c hc with h | h
    · right; left; exact h
    · right; right; exact h

theorem joinSlashRel_ne_nil (l : List Comp) (h : ∀ comp ∈ l, comp ≠ []) :
    joinSlashRel l ≠ [] := by
  cases l with
  | nil => simp [joinSlashRel]
  | cons c rest =>
    cases rest with
    | nil =>
      simpa [joinSlashRel, joinSlash] using h c (by simp)
    | cons c1 r1 =>
      simp only [joinSlashRel, if_neg (by simp : ¬ (c :: c1 :: r1 : List Comp) = [])]
      rw [show joinSlash (c :: c1 :: r1) = c ++ '/' :: joinSlash (c1 :: r1) from rfl]
      simp

/-- What the Aliasing decision's Replaced text looks like: it begins with `@`
and — when the file directory's components and the raw reference text are
quote-free, as every locator-produced reference is — holds no quote
character. -/
theorem alias_output_shape (coreRoot D : AbsPath) (p p₂ : List Char)
    (hD : GoodPath D)
    (hDq : ∀ comp ∈ D, ∀ c ∈ comp, isQuoteChar c = false)
    (hp : ∀ c ∈ p, isQuoteChar c = false)
    (hres : aliasRewriteRef coreRoot D p = some p₂) :
    (∃ p₃, p₂ = '@' :: p₃) ∧ (∀ c ∈ p₂, isQuoteChar c = false) := by
  have hT : GoodPath (resolve D p) := goodPath_resolve _ _ hD
  have hw : GoodPath ((resolve D p).drop coreRoot.length) := goodPath_drop hT _
  have hXne : joinSlashRel ((resolve D p).drop coreRoot.length) ≠ [] :=
    joinSlashRel_ne_nil _ (fun comp hcomp => (hw comp hcomp).1)
  have hXchars : ∀ c ∈ joinSlashRel ((resolve D p).drop coreRoot.length),
      isQuoteChar c = false := by
    intro c hc
    rcases joinSlashRel_chars _ c hc with h | h | ⟨comp, hcomp, hcc⟩
    · subst h; rfl
    · subst h; rfl
    · have hmem : comp ∈ resolve D p := List.mem_of_mem_drop hcomp
      rcases resolveComps_mem D (splitSlash p) comp hmem with h | h
      · exact hDq comp h c hcc
      · exact hp c (splitSlash_chars p comp h c hcc)
  simp only [aliasRewriteRef] at hres
  split at hres
  · simp only [Option.some.injEq] at hres
    obtain ⟨t, hst, hlt⟩ : ∃ t,
        ('@' :: 'c' :: 'o' :: 'r' :: 'e' :: '/'
            :: joinSlashRel ((resolve D p).drop coreRoot.length))
          = stripExtSub ('@' :: 'c' :: 'o' :: 'r' :: 'e' :: '/'
            :: joinSlashRel ((resolve D p).drop coreRoot.length)) ++ t
          ∧ t.length ≤ 5 := by
      rcases stripExtSub_spec ('@' :: 'c' :: 'o' :: 'r' :: 'e' :: '/'
          :: joinSlashRel ((resolve D p).drop coreRoot.length)) with h | ⟨t, h1, h2⟩
      · exact ⟨[], by simp [h], by simp⟩
      · exact ⟨t, h1, h2⟩
    rw [hres] at hst
    have hlen2 : 2 ≤ p₂.length := by
      have hXlen : 1 ≤ (joinSlashRel ((resolve D p).drop coreRoot.length)).length :=
        List.length_pos.mpr hXne
      have := congrArg List.length hst
      simp at this
      omega
    constructor
    · cases hp₂ : p₂ with
      | nil => rw [hp₂] at hlen2; simp at hlen2
      | cons x p₃ =>
        rw [hp₂] at hst
        have hx : x = '@' := by
          have := congrArg List.head? hst
          simpa using this.symm
        exact ⟨p₃, by rw [hx]⟩
    · intro c hc
      have hcs : c ∈ ('@' :: 'c' :: 'o' :: 'r' :: 'e' :: '/'
          :: joinSlashRel ((resolve D p).drop coreRoot.length)) := by
        rw [hst]
        exact List.mem_append_left _ hc
      rcases List.mem_cons.mp hcs with h | hcs
      · subst h; rfl
      rcases List.mem_cons.mp hcs with h | hcs
      · subst h; rfl
      rcases List.mem_cons.mp hcs with h | hcs
      · subst h; rfl
      rcases List.mem_cons.mp hcs with h | hcs
      · subst h; rfl
      rcases List.mem_cons.mp hcs with h | hcs
      · subst h; rfl
      rcases List.mem_cons.mp hcs with h | hcs
      · subst h; rfl
      exact hXchars c hcs
  · cases hres

/-- Locating a quote character inside `B ++ [q]` when `B` is quote-free: it
can only be the final `q`. -/
theorem concat_quote_split_inner (B : List Char) (q q' : Char) :
    ∀ (u v : List Char), (∀ c ∈ B, isQuoteChar c = false) →
      isQuoteChar q' = true → B ++ [q] = u ++ q' :: v →
      u = B ∧ q' = q ∧ v = [] := by
  induction B with
  | nil =>
    intro u v _ _ heq
    cases u with
    | nil =>
      simp at heq
      exact ⟨rfl, heq.1.symm, heq.2⟩
    | cons d u' =>
      exfalso
      simp at heq
  | cons b B' ih =>
    intro u v hB hq' heq
    cases u with
    | nil =>
      exfalso
      simp at heq
      obtain ⟨h1, -⟩ := heq
      have hb := hB b (by simp)
      rw [h1] at hb
      rw [hb] at hq'
      cases hq'
    | cons d u' =>
      simp only [List.cons_append, List.cons.injEq] at heq
      obtain ⟨h1, h2⟩ := heq
      obtain ⟨e1, e2, e3⟩ := ih u' v (fun c hc => hB c (by simp [hc])) hq' h2
      exact ⟨by rw [← h1, e1], e2, e3⟩

/-- Locating a quote character inside `A ++ q :: B ++ [q]` when `A` and `B`
are quote-free: it is the opening or the closing quote. -/
theorem concat_quote_split (A B : List Char) (q q' : Char) :
    ∀ (u v : List Char), (∀ c ∈ A, isQuoteChar c = false) →
      (∀ c ∈ B, isQuoteChar c = false) → isQuoteChar q' = true →
      A ++ q :: B ++ [q] = u ++ q' :: v →
      (u = A ∧ q' = q ∧ v = B ++ [q]) ∨ (u = A ++ q :: B ∧ q' = q ∧ v = []) := by
  induction A with
  | nil =>
    intro u v _ hB hq' heq
    cases u with
    | nil =>
      left
      simp at heq
      exact ⟨rfl, heq.1.symm, heq.2.symm⟩
    | cons d u' =>
      right
      simp only [List.nil_append, List.cons_append, List.cons.injEq] at heq
      obtain ⟨h1, h2⟩ := heq
      obtain ⟨e1, e2, e3⟩ := concat_quote_split_inner B q q' u' v hB hq' h2
      refine ⟨?_, e2, e3⟩
      simp [← h1, e1]
  | cons a A' ih =>
    intro u v hA hB hq' heq
    cases u with
    | nil =>
      exfalso
      simp at heq
      obtain ⟨h1, -⟩ := heq
      have ha := hA a (by simp)
      rw [h1] at ha
      rw [ha] at hq'
      cases hq'
    | cons d u' =>
      simp only [List.cons_append, List.cons.injEq] at heq
      obtain ⟨h1, h2⟩ := heq
      rcases ih u' v (fun c hc => hA c (by simp [hc])) hB hq' h2 with
        ⟨e1, e2, e3⟩ | ⟨e1, e2, e3⟩
      · left; exact ⟨by simp [← h1, e1], e2, e3⟩
      · right; exact ⟨by simp [← h1, e1], e2, e3⟩

/-! ### Claim C10 — the Aliasing rewrite is not re-matched -/

/-- C10: the Aliasing rewrite is idempotent at the reference level: the
Replaced text begins `@core/…` rather than `..`, so a line carrying it as its
quoted path (here in the canonical single-import line form, with quote-free
directory components and reference text, as the locator guarantees) is not
matched by the Aliasing locator again and stays Unchanged on a second run. -/
theorem aliasing_idempotent (coreRoot D : AbsPath) (p p₂ : List Char) (q : Char)
    (hD : GoodPath D)
    (hDq : ∀ comp ∈ D, ∀ c ∈ comp, isQuoteChar c = false)
    (hp : ∀ c ∈ p, isQuoteChar c = false)
    (hres : aliasRewriteRef coreRoot D p = some p₂) :
    aliasSearch ("import ".data ++ q :: p₂ ++ [q]) = none := by
  obtain ⟨⟨p₃, hhead⟩, hq2⟩ := alias_output_shape coreRoot D p p₂ hD hDq hp hres
  cases hsearch : aliasSearch ("import ".data ++ q :: p₂ ++ [q]) with
  | none => rfl
  | some m =>
    exfalso
    obtain ⟨s', hs, ht⟩ := searchWith_some hsearch
    obtain ⟨hqt, -, rest, hshape⟩ := aliasTail_some ht
    obtain ⟨u, hu⟩ := hs
    rw [hshape] at hu
    have hA : ∀ c ∈ "import ".data, isQuoteChar c = false := by decide
    rcases concat_quote_split "import ".data p₂ q m.quote u
        ('.' :: '.' :: '/' :: rest) hA hq2 hqt hu.symm with
      ⟨-, -, e3⟩ | ⟨-, -, e3⟩
    · rw [hhead] at e3
      simp only [List.cons_append, List.cons.injEq] at e3
      exact absurd e3.1 (by decide)
    · exact absurd e3 (by simp)

/-- Witness for C10: the rewritten reference `@core/x` (from `../core/x` in a
file of `src/cli`) is not matched again. -/
theorem aliasing_idempotent_witness :
    aliasSearch ("import ".data ++ '\'' :: "@core/x".data ++ ['\'']) = none :=
  aliasing_idempotent ["src".data, "core".data] ["src".data, "cli".data]
    "../core/x".data "@core/x".data '\''
    (by decide) (by decide) (by decide) (by decide)

/-! ### The File Rewriter's text assembly -/

/-- The characters Python `str.splitlines` treats as line boundaries. -/
def isLineBreakChar (c : Char) : Bool :=
  c = '\n' || c = '\r' || c = '\x0b' || c = '\x0c' || c = '\x1c' || c = '\x1d'
    || c = '\x1e' || c = '\x85' || c = ' ' || c = ' '

/-- Python `text.splitlines()` (auxiliary; `cur` holds the reversed current
line, `\r\n` counts as one boundary, a trailing boundary opens no final empty
line). -/
def splitLinesAux : List Char → List Char → List (List Char)
  | [], cur => [cur.reverse]
  | [c], cur => if isLineBreakChar c then [cur.reverse] else [(c :: cur).reverse]
  | c :: c2 :: rest, cur =>
    if c = '\r' ∧ c2 = '\n' then
      cur.reverse :: (match rest with | [] => [] | _ => splitLinesAux rest [])
    else if isLineBreakChar c then
      cur.reverse :: splitLinesAux (c2 :: rest) []
    else splitLinesAux (c2 :: rest) (c :: cur)

/-- Python `text.splitlines()`. -/
def splitLinesPy (s : List Char) : List (List Char) :=
  match s with
  | [] => []
  | _ => splitLinesAux s []

/-- Python `"\n".join`. -/
def joinNL : List (List Char) → List Char
  | [] => []
  | [l] => l
  | l :: rest => l ++ '\n' :: joinNL rest

/-- The File Rewriter's text assembly (`update_imports.py` lines 38 and
106–109, `use_core_alias.py` lines 39 and 78–81): splitlines, rewrite each
line, join with `\n`, and append a final `\n` iff the input ends with one. -/
def fileRewrite (processLine : List Char → Option (List Char))
    (content : List Char) : List Char :=
  let out := joinNL ((splitLinesPy content).map (fun l => (processLine l).getD l))
  if content.getLast? = some '\n' then out ++ ['\n'] else out

theorem splitLinesAux_crlf_nil (cur : List Char) :
    splitLinesAux ['\r', '\n'] cur = [cur.reverse] := by
  rw [splitLinesAux.eq_3, if_pos ⟨rfl, rfl⟩]

theorem splitLinesAux_crlf_cons (x : Char) (xs cur : List Char) :
    splitLinesAux ('\r' :: '\n' :: x :: xs) cur
      = cur.reverse :: splitLinesAux (x :: xs) [] := by
  rw [splitLinesAux.eq_4 _ _ _ _ (by simp), if_pos ⟨rfl, rfl⟩]

theorem splitLinesAux_break (c c2 : Char) (rest cur : List Char)
    (hcr : ¬ (c = '\r' ∧ c2 = '\n')) (hc : isLineBreakChar c = true) :
    splitLinesAux (c :: c2 :: rest) cur
      = cur.reverse :: splitLinesAux (c2 :: rest) [] := by
  cases rest with
  | nil => rw [splitLinesAux.eq_3, if_neg hcr, if_pos hc]
  | cons x xs => rw [splitLinesAux.eq_4 _ _ _ _ (by simp), if_neg hcr, if_pos hc]

theorem splitLinesAux_nobreak (c c2 : Char) (rest cur : List Char)
    (hc : isLineBreakChar c = false) :
    splitLinesAux (c :: c2 :: rest) cur = splitLinesAux (c2 :: rest) (c :: cur) := by
  have hcr : ¬ (c = '\r' ∧ c2 = '\n') := by
    rintro ⟨h1, -⟩
    rw [h1] at hc
    exact absurd hc (by decide)
  have hc2 : ¬ isLineBreakChar c = true := by simp [hc]
  cases rest with
  | nil => rw [splitLinesAux.eq_3, if_neg hcr, if_neg hc2]
  | cons x xs => rw [splitLinesAux.eq_4 _ _ _ _ (by simp), if_neg hcr, if_neg hc2]

theorem splitLinesAux_ne_nil (s cur : List Char) : splitLinesAux s cur ≠ [] := by
  induction s, cur using splitLinesAux.induct with
  | case1 cur => simp [splitLinesAux]
  | case2 c cur hc => rw [splitLinesAux.eq_2, if_pos hc]; simp
  | case3 c cur hc => rw [splitLinesAux.eq_2, if_neg hc]; simp
  | case4 c c2 rest cur hcr ih =>
    obtain ⟨h1, h2⟩ := hcr
    subst h1
    subst h2
    cases rest with
    | nil => rw [splitLinesAux_crlf_nil]; simp
    | cons x xs => rw [splitLinesAux_crlf_cons]; simp
  | case5 c c2 rest cur hcr hc ih =>
    rw [splitLinesAux_break c c2 rest cur hcr hc]; simp
  | case6 c c2 rest cur hcr hc ih =>
    rw [splitLinesAux_nobreak c c2 rest cur (by simpa using hc)]
    exact ih

theorem getLast?_cons_of_ne_nil {α : Type} {l : List α} (a : α) (h : l ≠ []) :
    (a :: l).getLast? = l.getLast? := by
  cases l with
  | nil => exact absurd rfl h
  | cons b l' => exact List.getLast?_cons_cons

theorem splitLinesAux_no_break (s cur : List Char)
    (hcur : ∀ c ∈ cur, isLineBreakChar c = false) :
    ∀ l ∈ splitLinesAux s cur, ∀ c ∈ l, isLineBreakChar c = false := by
  induction s, cur using splitLinesAux.induct with
  | case1 cur =>
    intro l hl c hc
    rw [splitLinesAux.eq_1] at hl
    simp at hl
    subst hl
    exact hcur c (by simpa using hc)
  | case2 c0 cur hc0 =>
    intro l hl c hc
    rw [splitLinesAux.eq_2, if_pos hc0] at hl
    simp at hl
    subst hl
    exact hcur c (by simpa using hc)
  | case3 c0 cur hc0 =>
    intro l hl c hc
    rw [splitLinesAux.eq_2, if_neg hc0] at hl
    simp at hl
    subst hl
    simp at hc
    rcases hc with hc | hc
    · exact hcur c hc
    · subst hc; simpa using hc0
  | case4 c0 c2 rest cur hcr ih =>
    intro l hl c hc
    obtain ⟨h1, h2⟩ := hcr
    subst h1
    subst h2
    cases rest with
    | nil =>
      rw [splitLinesAux_crlf_nil] at hl
      simp at hl
      subst hl
      exact hcur c (by simpa using hc)
    | cons x xs =>
      rw [splitLinesAux_crlf_cons] at hl
      rcases List.mem_cons.mp hl with hl | hl
      · subst hl; exact hcur c (by simpa using hc)
      · exact ih (by simp) l hl c hc
  | case5 c0 c2 rest cur hcr hc0 ih =>
    intro l hl c hc
    rw [splitLinesAux_break c0 c2 rest cur hcr hc0] at hl
    rcases List.mem_cons.mp hl with hl | hl
    · subst hl; exact hcur c (by simpa using hc)
    · exact ih (by simp) l hl c hc
  | case6 c0 c2 rest cur hcr hc0 ih =>
    intro l hl c hc
    rw [splitLinesAux_nobreak c0 c2 rest cur (by simpa using hc0)] at hl
    refine ih ?_ l hl c hc
    intro d hd
    rcases List.mem_cons.mp hd with hd | hd
    · subst hd; simpa using hc0
    · exact hcur d hd

theorem splitLinesAux_last (s cur : List Char) (c₀ : Char)
    (hlast : s.getLast? = some c₀) (hc₀ : isLineBreakChar c₀ = false) :
    ∃ l, (splitLinesAux s cur).getLast? = some l ∧ l ≠ [] := by
  induction s, cur using splitLinesAux.induct with
  | case1 cur => cases hlast
  | case2 c0 cur hc0 =>
    exfalso
    have h2 : ([c0] : List Char).getLast? = some c0 := rfl
    rw [h2] at hlast
    injection hlast with hlast
    rw [← hlast] at hc₀
    rw [hc0] at hc₀
    cases hc₀
  | case3 c0 cur hc0 =>
    rw [splitLinesAux.eq_2, if_neg hc0]
    exact ⟨(c0 :: cur).reverse, rfl, by simp⟩
  | case4 c0 c2 rest cur hcr ih =>
    obtain ⟨h1, h2⟩ := hcr
    subst h1
    subst h2
    cases rest with
    | nil =>
      exfalso
      have h2 : (['\r', '\n'] : List Char).getLast? = some '\n' := by decide
      rw [h2] at hlast
      injection hlast with hlast
      rw [← hlast] at hc₀
      exact absurd hc₀ (by decide)
    | cons x xs =>
      rw [splitLinesAux_crlf_cons]
      have hne := splitLinesAux_ne_nil (x :: xs) []
      rw [getLast?_cons_of_ne_nil _ hne]
      apply ih
      rw [getLast?_cons_of_ne_nil _ (by simp)] at hlast
      rw [getLast?_cons_of_ne_nil _ (by simp)] at hlast
      exact hlast
  | case5 c0 c2 rest cur hcr hc0 ih =>
    rw [splitLinesAux_break c0 c2 rest cur hcr hc0]
    have hne := splitLinesAux_ne_nil (c2 :: rest) []
    rw [getLast?_cons_of_ne_nil _ hne]
    apply ih
    rw [getLast?_cons_of_ne_nil _ (by simp)] at hlast
    exact hlast
  | case6 c0 c2 rest cur hcr hc0 ih =>
    rw [splitLinesAux_nobreak c0 c2 rest cur (by simpa using hc0)]
    apply ih
    rw [getLast?_cons_of_ne_nil _ (by simp)] at hlast
    exact hlast

theorem joinNL_getLast (ls : List (List Char)) (l : List Char)
    (hlast : ls.getLast? = some l) (hne : l ≠ []) :
    joinNL ls ≠ [] ∧ (joinNL ls).getLast? = l.getLast? := by
  induction ls with
  | nil => cases hlast
  | cons l₁ rest ih =>
    cases rest with
    | nil =>
      have : l₁ = l := by
        have h2 : ([l₁] : List (List Char)).getLast? = some l₁ := rfl
        rw [h2] at hlast
        injection hlast
      subst this
      exact ⟨hne, rfl⟩
    | cons l₂ rest₂ =>
      rw [getLast?_cons_of_ne_nil _ (by simp)] at hlast
      obtain ⟨hjne, hjlast⟩ := ih hlast
      have hjoin : joinNL (l₁ :: l₂ :: rest₂) = l₁ ++ '\n' :: joinNL (l₂ :: rest₂) := rfl
      constructor
      · rw [hjoin]; simp
      · rw [hjoin, List.getLast?_append, getLast?_cons_of_ne_nil _ hjne, hjlast]
        have hsome : l.getLast?.isSome = true := List.getLast?_isSome.mpr hne
        cases hl : l.getLast? with
        | none => rw [hl] at hsome; cases hsome
        | some x => rfl

theorem replaceAllF_chars (pat rep : List Char) :
    ∀ (n : Nat) (s : List Char), ∀ c ∈ replaceAllF n s pat rep, c ∈ s ∨ c ∈ rep := by
  intro n
  induction n with
  | zero => intro s c hc; exact Or.inl hc
  | succ n ih =>
    intro s c hc
    cases s with
    | nil => rw [replaceAllF] at hc; simp at hc
    | cons a s' =>
      rw [replaceAllF] at hc
      split at hc
      · rcases List.mem_append.mp hc with h | h
        · exact Or.inr h
        · rcases ih _ c h with h | h
          · exact Or.inl (List.mem_of_mem_drop h)
          · exact Or.inr h
      · rcases List.mem_cons.mp hc with h | h
        · exact Or.inl (by simp [h])
        · rcases ih s' c h with h | h
          · exact Or.inl (by simp [h])
          · exact Or.inr h

theorem replaceAll_chars (s pat rep : List Char) :
    ∀ c ∈ replaceAll s pat rep, c ∈ s ∨ c ∈ rep :=
  replaceAllF_chars pat rep s.length s

theorem replaceAllF_ne_nil (pat rep : List Char) (hrep : rep ≠ []) :
    ∀ (n : Nat) (s : List Char), s ≠ [] → replaceAllF n s pat rep ≠ [] := by
  intro n
  induction n with
  | zero => intro s hs; exact hs
  | succ n _ =>
    intro s hs
    cases s with
    | nil => exact absurd rfl hs
    | cons a s' =>
      rw [replaceAllF]
      split
      · intro hcon
        exact hrep (List.append_eq_nil.mp hcon).1
      · simp

theorem replaceAll_ne_nil (s pat rep : List Char) (hs : s ≠ []) (hrep : rep ≠ []) :
    replaceAll s pat rep ≠ [] :=
  replaceAllF_ne_nil pat rep hrep s.length s hs

theorem addDotSlash_chars (s : List Char) :
    ∀ c ∈ addDotSlash s, c = '.' ∨ c = '/' ∨ c ∈ s := by
  intro c hc
  unfold addDotSlash at hc
  split at hc
  · right; right; exact hc
  · rcases List.mem_cons.mp hc with h | h
    · left; exact h
    · rcases List.mem_cons.mp h with h | h
      · right; left; exact h
      · right; right; exact h

theorem addDotSlash_ne_nil (s : List Char) : addDotSlash s ≠ [] := by
  unfold addDotSlash
  split
  · rename_i h
    intro hcon
    rw [hcon] at h
    rcases h with h | h
    · exact absurd (List.prefix_nil.mp (List.isPrefixOf_iff_prefix.mp h)) (by simp)
    · exact absurd (List.prefix_nil.mp (List.isPrefixOf_iff_prefix.mp h)) (by simp)
  · simp

theorem relpathText_chars (T D : AbsPath) :
    ∀ c ∈ relpathText T D, c = '.' ∨ c = '/' ∨ ∃ comp ∈ T, c ∈ comp := by
  intro c hc
  unfold relpathText at hc
  split at hc
  · left; simpa using hc
  · rcases joinSlash_chars _ c hc with h | ⟨comp, hcomp, hcc⟩
    · right; left; exact h
    · unfold relpathComps at hcomp
      rcases List.mem_append.mp hcomp with h | h
      · left
        have hrep := List.eq_of_mem_replicate h
        subst hrep
        rcases List.mem_cons.mp hcc with h2 | h2
        · exact h2
        · simpa using h2
      · right; right; exact ⟨comp, List.mem_of_mem_drop h, hcc⟩

/-- Character provenance of the Relocation decision's Replaced text: every
character is a dot, a slash, or drawn from the new root's components, the
referencing file's path components, or the raw reference text. -/
theorem reloc_output_chars (cfg : RelocCfg) (F : AbsPath) (p p₂ : List Char)
    (P : Char → Bool)
    (hdot : P '.' = false) (hslash : P '/' = false)
    (hNq : ∀ comp ∈ cfg.newRoot, ∀ c ∈ comp, P c = false)
    (hFq : ∀ comp ∈ F, ∀ c ∈ comp, P c = false)
    (hp : ∀ c ∈ p, P c = false)
    (hres : relocRewriteRef cfg F p = some p₂) :
    ∀ c ∈ p₂, P c = false := by
  have hDq : ∀ comp ∈ F.dropLast, ∀ c ∈ comp, P c = false :=
    fun comp hcomp => hFq comp (List.mem_of_mem_dropLast hcomp)
  have hTq : ∀ comp ∈ resolve F.dropLast p, ∀ c ∈ comp, P c = false := by
    intro comp hcomp
    rcases resolveComps_mem _ _ comp hcomp with h | h
    · exact hDq comp h
    · exact fun c hc => hp c (splitSlash_chars p comp h c hc)
  have hfromT : ∀ (X : AbsPath), (∀ comp ∈ X, ∀ c ∈ comp, P c = false) →
      ∀ c ∈ addDotSlash (relpathText X F.dropLast), P c = false := by
    intro X hX c hc
    rcases addDotSlash_chars _ c hc with h | h | h
    · subst h; exact hdot
    · subst h; exact hslash
    · rcases relpathText_chars _ _ c h with h | h | ⟨comp, hcomp, hcc⟩
      · subst h; exact hdot
      · subst h; exact hslash
      · exact hX comp hcomp c hcc
  simp only [relocRewriteRef] at hres
  split at hres
  · simp only [Option.some.injEq] at hres
    subst hres
    apply hfromT
    intro comp hcomp
    rcases resolveComps_mem _ _ comp hcomp with h | h
    · exact hNq comp h
    · exact hTq comp (List.mem_of_mem_drop h)
  · split at hres
    · split at hres
      · simp only [Option.some.injEq] at hres
        subst hres
        exact hfromT _ hTq
      · cases hres
    · cases hres

theorem reloc_output_ne_nil (cfg : RelocCfg) (F : AbsPath) (p p₂ : List Char)
    (hres : relocRewriteRef cfg F p = some p₂) : p₂ ≠ [] := by
  simp only [relocRewriteRef] at hres
  split at hres
  · simp only [Option.some.injEq] at hres
    rw [← hres]
    exact addDotSlash_ne_nil _
  · split at hres
    · split at hres
      · simp only [Option.some.injEq] at hres
        rw [← hres]
        exact addDotSlash_ne_nil _
      · cases hres
    · cases hres

/-- Character provenance of the Aliasing decision's Replaced text. -/
theorem alias_output_chars (coreRoot D : AbsPath) (p p₂ : List Char) (P : Char → Bool)
    (hdot : P '.' = false) (hslash : P '/' = false) (hat : P '@' = false)
    (hc1 : P 'c' = false) (ho1 : P 'o' = false) (hr1 : P 'r' = false)
    (he1 : P 'e' = false)
    (hDq : ∀ comp ∈ D, ∀ c ∈ comp, P c = false)
    (hp : ∀ c ∈ p, P c = false)
    (hres : aliasRewriteRef coreRoot D p = some p₂) :
    ∀ c ∈ p₂, P c = false := by
  simp only [aliasRewriteRef] at hres
  split at hres
  · simp only [Option.some.injEq] at hres
    intro c hc
    rw [← hres] at hc
    have hbig : c ∈ ('@' :: 'c' :: 'o' :: 'r' :: 'e' :: '/'
        :: joinSlashRel ((resolve D p).drop coreRoot.length)) := by
      rcases stripExtSub_spec ('@' :: 'c' :: 'o' :: 'r' :: 'e' :: '/'
          :: joinSlashRel ((resolve D p).drop coreRoot.length)) with h | ⟨t, h1, h2⟩
      · rw [← h]; exact hc
      · rw [h1]; exact List.mem_append_left _ hc
    rcases List.mem_cons.mp hbig with h | hbig
    · subst h; exact hat
    rcases List.mem_cons.mp hbig with h | hbig
    · subst h; exact hc1
    rcases List.mem_cons.mp hbig with h | hbig
    · subst h; exact ho1
    rcases List.mem_cons.mp hbig with h | hbig
    · subst h; exact hr1
    rcases List.mem_cons.mp hbig with h | hbig
    · subst h; exact he1
    rcases List.mem_cons.mp hbig with h | hbig
    · subst h; exact hslash
    rcases joinSlashRel_chars _ c hbig with h | h | ⟨comp, hcomp, hcc⟩
    · subst h; exact hdot
    · subst h; exact hslash
    · have hmem : comp ∈ resolve D p := List.mem_of_mem_drop hcomp
      rcases resolveComps_mem D (splitSlash p) comp hmem with h | h
      · exact hDq comp h c hcc
      · exact hp c (splitSlash_chars p comp h c hcc)
  · cases hres

theorem alias_output_ne_nil (coreRoot D : AbsPath) (p p₂ : List Char)
    (hD : GoodPath D) (hres : aliasRewriteRef coreRoot D p = some p₂) : p₂ ≠ [] := by
  have hT : GoodPath (resolve D p) := goodPath_resolve _ _ hD
  have hXne : joinSlashRel ((resolve D p).drop coreRoot.length) ≠ [] :=
    joinSlashRel_ne_nil _ (fun comp hcomp => ((goodPath_drop hT _) comp hcomp).1)
  have hXlen : 1 ≤ (joinSlashRel ((resolve D p).drop coreRoot.length)).length :=
    List.length_pos.mpr hXne
  simp only [aliasRewriteRef] at hres
  split at hres
  · simp only [Option.some.injEq] at hres
    intro hcon
    rcases stripExtSub_spec ('@' :: 'c' :: 'o' :: 'r' :: 'e' :: '/'
        :: joinSlashRel ((resolve D p).drop coreRoot.length)) with h | ⟨t, h1, h2⟩
    · rw [hres, hcon] at h
      have := congrArg List.length h
      simp at this
    · rw [hres, hcon] at h1
      have := congrArg List.length h1
      simp at this
      omega
  · cases hres

theorem relocTail_path_mem {s : List Char} {q : Char} {path : List Char}
    (h : relocTail s = some (q, path)) : ∀ c ∈ path, c ∈ s := by
  cases s with
  | nil => cases h
  | cons q0 rest0 =>
    simp only [relocTail] at h
    split at h
    · simp only [Option.some.injEq, Prod.mk.injEq] at h
      obtain ⟨-, hp⟩ := h
      subst hp
      intro c hc
      have hrun : rest0.takeWhile (fun c => !(isQuoteChar c)) <+: rest0 :=
        List.takeWhile_prefix _
      exact List.mem_cons_of_mem q0 (hrun.subset hc)
    · cases h

theorem aliasTail_path_mem {s : List Char} {q : Char} {path : List Char}
    (h : aliasTail s = some (q, path)) : ∀ c ∈ path, c ∈ s := by
  cases s with
  | nil => cases h
  | cons q0 rest0 =>
    simp only [aliasTail] at h
    split at h
    · simp only [Option.some.injEq, Prod.mk.injEq] at h
      obtain ⟨-, hp⟩ := h
      subst hp
      intro c hc
      have hrun : rest0.takeWhile (fun c => !(isQuoteChar c)) <+: rest0 :=
        List.takeWhile_prefix _
      exact List.mem_cons_of_mem q0 (hrun.subset hc)
    · cases h

theorem searchWith_nil (tail : List Char → Option (Char × List Char)) :
    searchWith tail [] = none := by
  rw [searchWith]
  unfold matchAtWith
  rw [if_neg]
  intro h
  exact absurd (List.prefix_nil.mp h) (by simp)

/-- A Replaced line of the Aliasing tool stays free of line-break characters
and nonempty (for break-free input lines and configuration). -/
theorem aliasProcessLine_keeps (coreRoot D : AbsPath)
    (hD : GoodPath D)
    (hDb : ∀ comp ∈ D, ∀ c ∈ comp, isLineBreakChar c = false)
    (line l₂ : List Char)
    (h : aliasProcessLine coreRoot D line = some l₂)
    (hl : ∀ c ∈ line, isLineBreakChar c = false) :
    (∀ c ∈ l₂, isLineBreakChar c = false) ∧ l₂ ≠ [] := by
  unfold aliasProcessLine at h
  cases hm : aliasSearch line with
  | none => rw [hm] at h; cases h
  | some m =>
    rw [hm] at h
    dsimp only at h
    cases hr : aliasRewriteRef coreRoot D m.path with
    | none => rw [hr] at h; cases h
    | some p₂ =>
      rw [hr] at h
      dsimp only at h
      simp only [Option.some.injEq] at h
      have hlinene : line ≠ [] := by
        intro hcon
        rw [hcon, show aliasSearch [] = none from searchWith_nil aliasTail] at hm
        cases hm
      have hpathmem : ∀ c ∈ m.path, c ∈ line := by
        obtain ⟨s', hs, ht⟩ := searchWith_some hm
        intro c hc
        exact hs.subset (aliasTail_path_mem ht c hc)
      have hpq : ∀ c ∈ m.path, isLineBreakChar c = false :=
        fun c hc => hl c (hpathmem c hc)
      have hp₂ : ∀ c ∈ p₂, isLineBreakChar c = false :=
        alias_output_chars coreRoot D m.path p₂ isLineBreakChar
          (by decide) (by decide) (by decide) (by decide) (by decide) (by decide)
          (by decide) hDb hpq hr
      have hp₂ne : p₂ ≠ [] := alias_output_ne_nil coreRoot D m.path p₂ hD hr
      have hg0ne : m.g0 ≠ [] := by simp [RMatch.g0]
      have hXne : replaceAll m.g0 m.path p₂ ≠ [] := replaceAll_ne_nil _ _ _ hg0ne hp₂ne
      constructor
      · intro c hc
        rw [← h] at hc
        by_cases hocc : ∃ i, m.g0 <+: line.drop i
        · obtain ⟨i, hi⟩ := hocc
          have hg0mem : ∀ d ∈ m.g0, d ∈ line :=
            fun d hd => List.mem_of_mem_drop (hi.subset hd)
          rcases replaceAll_chars _ _ _ c hc with hcl | hcX
          · exact hl c hcl
          · rcases replaceAll_chars _ _ _ c hcX with hcg | hcp
            · exact hl c (hg0mem c hcg)
            · exact hp₂ c hcp
        · push_neg at hocc
          rw [show replaceAll line m.g0 (replaceAll m.g0 m.path p₂) = line from
            replaceAllF_no_occ _ _ _ _ le_rfl hocc] at hc
          exact hl c hc
      · rw [← h]
        exact replaceAll_ne_nil _ _ _ hlinene hXne

/-- A Replaced line of the Relocation tool stays free of line-break characters
and nonempty (for break-free input lines and configuration). -/
theorem relocProcessLine_keeps (cfg : RelocCfg) (F : AbsPath)
    (hNb : ∀ comp ∈ cfg.newRoot, ∀ c ∈ comp, isLineBreakChar c = false)
    (hFb : ∀ comp ∈ F, ∀ c ∈ comp, isLineBreakChar c = false)
    (line l₂ : List Char)
    (h : relocProcessLine cfg F line = some l₂)
    (hl : ∀ c ∈ line, isLineBreakChar c = false) :
    (∀ c ∈ l₂, isLineBreakChar c = false) ∧ l₂ ≠ [] := by
  unfold relocProcessLine at h
  cases hm : relocSearch line with
  | none => rw [hm] at h; cases h
  | some m =>
    rw [hm] at h
    dsimp only at h
    cases hr : relocRewriteRef cfg F m.path with
    | none => rw [hr] at h; cases h
    | some p₂ =>
      rw [hr] at h
      dsimp only at h
      simp only [Option.some.injEq] at h
      have hlinene : line ≠ [] := by
        intro hcon
        rw [hcon, show relocSearch [] = none from searchWith_nil relocTail] at hm
        cases hm
      have hpathmem : ∀ c ∈ m.path, c ∈ line := by
        obtain ⟨s', hs, ht⟩ := searchWith_some hm
        intro c hc
        exact hs.subset (relocTail_path_mem ht c hc)
      have hpq : ∀ c ∈ m.path, isLineBreakChar c = false :=
        fun c hc => hl c (hpathmem c hc)
      have hp₂ : ∀ c ∈ p₂, isLineBreakChar c = false :=
        reloc_output_chars cfg F m.path p₂ isLineBreakChar
          (by decide) (by decide) hNb hFb hpq hr
      have hp₂ne : p₂ ≠ [] := reloc_output_ne_nil cfg F m.path p₂ hr
      have hg0ne : m.g0 ≠ [] := by simp [RMatch.g0]
      have hXne : replaceAll m.g0 m.path p₂ ≠ [] := replaceAll_ne_nil _ _ _ hg0ne hp₂ne
      constructor
      · intro c hc
        rw [← h] at hc
        by_cases hocc : ∃ i, m.g0 <+: line.drop i
        · obtain ⟨i, hi⟩ := hocc
          have hg0mem : ∀ d ∈ m.g0, d ∈ line :=
            fun d hd => List.mem_of_mem_drop (hi.subset hd)
          rcases replaceAll_chars _ _ _ c hc with hcl | hcX
          · exact hl c hcl
          · rcases replaceAll_chars _ _ _ c hcX with hcg | hcp
            · exact hl c (hg0mem c hcg)
            · exact hp₂ c hcp
        · push_neg at hocc
          rw [show replaceAll line m.g0 (replaceAll m.g0 m.path p₂) = line from
            replaceAllF_no_occ _ _ _ _ le_rfl hocc] at hc
          exact hl c hc
      · rw [← h]
        exact replaceAll_ne_nil _ _ _ hlinene hXne

/-- The trailing-newline behaviour of the File Rewriter's assembly, for a
per-line rewrite that keeps break-free lines break-free and nonempty. -/
theorem fileRewrite_trailing (pl : List Char → Option (List Char))
    (hpl : ∀ l l₂, pl l = some l₂ → (∀ c ∈ l, isLineBreakChar c = false) →
      (∀ c ∈ l₂, isLineBreakChar c = false) ∧ l₂ ≠ [])
    (content : List Char)
    (hLF : ∀ c ∈ content, isLineBreakChar c = true → c = '\n') :
    ((fileRewrite pl content).getLast? = some '\n')
      ↔ (content.getLast? = some '\n') := by
  unfold fileRewrite
  by_cases hend : content.getLast? = some '\n'
  · rw [if_pos hend, List.getLast?_concat]
    simp [hend]
  · rw [if_neg hend]
    constructor
    · intro hout
      exfalso
      cases hc : content with
      | nil =>
        rw [hc] at hout
        simp [splitLinesPy, joinNL] at hout
      | cons c₀ rest =>
        have hsome : content.getLast?.isSome = true :=
          List.getLast?_isSome.mpr (by rw [hc]; simp)
        obtain ⟨clast, hclast⟩ : ∃ x, content.getLast? = some x := by
          cases hq : content.getLast? with
          | none => rw [hq] at hsome; cases hsome
          | some x => exact ⟨x, rfl⟩
        have hclb : isLineBreakChar clast = false := by
          cases hb : isLineBreakChar clast with
          | false => rfl
          | true =>
            exfalso
            have := hLF clast (List.mem_of_mem_getLast? hclast) hb
            rw [this] at hclast
            exact hend hclast
        obtain ⟨llast, hlast, hlne⟩ := splitLinesAux_last content [] clast hclast hclb
        have hsplit : splitLinesPy content = splitLinesAux content [] := by
          rw [hc]; rfl
        have hlines_bf : ∀ c ∈ llast, isLineBreakChar c = false :=
          splitLinesAux_no_break content [] (by simp) llast
            (List.mem_of_mem_getLast? hlast)
        have hmap : ((splitLinesPy content).map (fun l => (pl l).getD l)).getLast?
            = some ((pl llast).getD llast) := by
          rw [hsplit, List.getLast?_map, hlast]
          rfl
        have hfprops : (∀ c ∈ (pl llast).getD llast, isLineBreakChar c = false)
            ∧ (pl llast).getD llast ≠ [] := by
          cases hpll : pl llast with
          | none => exact ⟨by simpa [hpll] using hlines_bf, by simpa [hpll] using hlne⟩
          | some l₂ =>
            have := hpl llast l₂ hpll hlines_bf
            exact ⟨by simpa [hpll] using this.1, by simpa [hpll] using this.2⟩
        obtain ⟨hjne, hjlast⟩ := joinNL_getLast _ _ hmap hfprops.2
        rw [hjlast] at hout
        have hc₁ := List.mem_of_mem_getLast? hout
        have := hfprops.1 '\n' hc₁
        exact absurd this (by decide)
    · intro h
      exact absurd h hend

/-! ### Claim C6 — line endings and the final newline -/

/-- C6 (amended): the File Rewriter joins lines with LF, so a CRLF input comes
out with LF endings (see the counterexample); for an input whose line-break
characters are all LF, the output ends with a final newline iff the input
does, under either tool (with configuration path components free of line
breaks). -/
theorem rewriter_trailing_newline (cfg : RelocCfg) (coreRoot F D : AbsPath)
    (hD : GoodPath D)
    (hFb : ∀ comp ∈ F, ∀ c ∈ comp, isLineBreakChar c = false)
    (hNb : ∀ comp ∈ cfg.newRoot, ∀ c ∈ comp, isLineBreakChar c = false)
    (hDb : ∀ comp ∈ D, ∀ c ∈ comp, isLineBreakChar c = false)
    (content : List Char)
    (hLF : ∀ c ∈ content, isLineBreakChar c = true → c = '\n') :
    ((fileRewrite (relocProcessLine cfg F) content).getLast? = some '\n'
      ↔ content.getLast? = some '\n') ∧
    ((fileRewrite (aliasProcessLine coreRoot D) content).getLast? = some '\n'
      ↔ content.getLast? = some '\n') :=
  ⟨fileRewrite_trailing _ (fun l l₂ h hl => relocProcessLine_keeps cfg F hNb hFb l l₂ h hl)
      content hLF,
   fileRewrite_trailing _ (fun l l₂ h hl => aliasProcessLine_keeps coreRoot D hD hDb l l₂ h hl)
      content hLF⟩

/-- C6 counterexample: a CRLF input does not keep its CRLF endings — the
rewritten file comes out with LF line endings. -/
theorem crlf_not_preserved :
    fileRewrite (aliasProcessLine ["src".data, "core".data] ["src".data, "cli".data])
        "import a from '../core/x';\r\nrest\r\n".data
      = "import a from '@core/x';\nrest\n".data ∧
    "import a from '@core/x';\nrest\n".data
      ≠ "import a from '@core/x';\r\nrest\r\n".data := by decide

/-- Witness for the amended C6 at a concrete LF-only file. -/
theorem rewriter_trailing_newline_witness :
    ((fileRewrite (relocProcessLine
          ⟨["src".data, "components".data], ["src".data, "cli".data, "components".data]⟩
          ["src".data, "entrypoints".data, "app.ts".data])
        "import a from '../components/Btn';\n".data).getLast? = some '\n'
      ↔ ("import a from '../components/Btn';\n".data).getLast? = some '\n') ∧
    ((fileRewrite (aliasProcessLine ["src".data, "core".data] ["src".data, "cli".data])
        "import a from '../components/Btn';\n".data).getLast? = some '\n'
      ↔ ("import a from '../components/Btn';\n".data).getLast? = some '\n') :=
  rewriter_trailing_newline
    ⟨["src".data, "components".data], ["src".data, "cli".data, "components".data]⟩
    ["src".data, "core".data]
    ["src".data, "entrypoints".data, "app.ts".data]
    ["src".data, "cli".data]
    (by decide) (by decide) (by decide) (by decide)
    "import a from '../components/Btn';\n".data (by decide)

end Scripta
